import Mathlib

set_option maxHeartbeats 1000000
set_option maxRecDepth 4000

/-!
Shallow embedding of e2find.c (bearstech/e2find) and verification of the
specified properties of its core: the packed inode table and its bisection
lookup, the dirent store built by the directory-entry scan, the backward
path resolver, and the emitter.  Machine integers are modelled as Nat
(unsigned) or Int (where the C uses signed arithmetic); byte buffers are
lists of byte values (Nat).
-/

namespace E2find

/-! ### Definitions: the shallow embedding of e2find.c -/

/-- Read the `ino` field of the record at (possibly negative) index `idx` of
the packed inode array: models the access `inode_p + inodes_elsize * index`
in `inode_lookup`.  The lookup only ever reads the `ino` field, so the table
is modelled as its packed ino column.  An out-of-bounds access (undefined
behavior in C) yields `none`. -/
def readAt (l : List Nat) (idx : Int) : Option Nat :=
  if idx < 0 then none else l[idx.toNat]?

/-- Result of the bisection loop of `inode_lookup`: early return with the
found position, normal loop exit with the final `index` and last-read record,
or an out-of-bounds read. -/
inductive BisectRes where
  | found : Nat → BisectRes
  | stop : Int → Option Nat → BisectRes
  | fault : BisectRes
deriving DecidableEq

/-- One index update of the bisection loop: `if (i && i->ino < ino) index +=
ihalf; else index -= ihalf;` where `ihalf` has already been halved. -/
def nextIndex (ino : Nat) (h : Nat) (index : Int) (cur : Option Nat) : Int :=
  match cur with
  | some c => if c < ino then index + h else index - h
  | none => index - h

/-- The `while ((ihalf /= 2) > 1)` bisection loop of `inode_lookup`
(e2find.c:218-231).  `cur` is the ino of the record `i` points at
(`none` while `i == NULL`).  `fuel` exists only to make the recursion
structural; since `ihalf` strictly decreases, any `fuel ≥ ihalf` (below:
`l.length + 1`) makes the `fuel = 0` branch unreachable. -/
def bisectLoop (l : List Nat) (ino : Nat) : Nat → Nat → Int → Option Nat → BisectRes
  | 0, _, _, _ => .fault
  | fuel + 1, ihalf, index, cur =>
    if ihalf / 2 ≤ 1 then .stop index cur
    else
      match readAt l (nextIndex ino (ihalf / 2) index cur) with
      | none => .fault
      | some r =>
        if r = ino then .found (nextIndex ino (ihalf / 2) index cur).toNat
        else bisectLoop l ino fuel (ihalf / 2) (nextIndex ino (ihalf / 2) index cur) (some r)

/-- The upward linear scan of `inode_lookup` (e2find.c:241-248):
`do { index++; ... } while (i->ino < ino)`.  `fuel` bounds the number of
iterations; `l.length + 1` always suffices on a sorted table containing
`ino` (the C loop needs no bound because it stops on the first record whose
ino is ≥ the target). -/
def walkUp (l : List Nat) (ino : Nat) : Nat → Int → Option Nat
  | 0, _ => none
  | fuel + 1, index =>
    let index2 : Int := index + 1
    match readAt l index2 with
    | none => none
    | some r =>
      if r = ino then some index2.toNat
      else if r < ino then walkUp l ino fuel index2
      else none

/-- The downward linear scan of `inode_lookup` (e2find.c:251-259):
`do { index--; ... } while (i->ino > ino)`. -/
def walkDown (l : List Nat) (ino : Nat) : Nat → Int → Option Nat
  | 0, _ => none
  | fuel + 1, index =>
    let index2 : Int := index - 1
    match readAt l index2 with
    | none => none
    | some r =>
      if r = ino then some index2.toNat
      else if ino < r then walkDown l ino fuel index2
      else none

/-- Function `inode_lookup` of e2find.c:207-263: bisection over the packed sorted ino
column, then a directed linear scan.  Returns the index stored into `*pos`
(the returned record pointer is the record at that index); `none` models both
the C function returning NULL and an out-of-bounds access. -/
def inode_lookup (l : List Nat) (ino : Nat) : Option Nat :=
  match bisectLoop l ino (l.length + 1) l.length l.length none with
  | .fault => none
  | .found k => some k
  | .stop index cur =>
    match cur with
    | none => walkUp l ino (l.length + 1) (-1)
    | some c =>
      if c < ino then walkUp l ino (l.length + 1) index
      else walkDown l ino (l.length + 1) index

/-- Total future displacement bound of the bisection loop from state
`(fuel, ihalf)`: the sum of the successive halvings that still drive an
iteration. -/
def movb : Nat → Nat → Nat
  | 0, _ => 0
  | f + 1, ihalf => if ihalf / 2 ≤ 1 then 0 else ihalf / 2 + movb f (ihalf / 2)

/-- Total length of the name components of a parent chain. -/
def sumLens (chain : List (List Nat)) : Nat := (chain.map List.length).sum

/-- The `while (1)` loop of `dirent_to_path`.  `chain` is the sequence of
`name` byte strings read at the successive dirents `d`, `parent(d)`, ...;
an empty name is the root sentinel (`*d->name == '\0'`) at which the loop
breaks, and a chain exhausted without reaching a root dirent (impossible for
store-built chains) is modelled as `none`.  `i` is the iteration counter
before the `i++`, `pos` the write cursor into `path[]`, `acc` the bytes
already written at `path[pos..]` (the final NUL excluded).  Errors: `1`
(`path[]` overflow), `2` (too many components). -/
def dtpLoop : List (List Nat) → Nat → Nat → List Nat → Option (Except Nat (List Nat))
  | [], _, _, _ => none
  | name :: rest, i, pos, acc =>
    if (0 < i ∨ name = []) ∧ pos < 1 then some (.error 1)
    else
      let pos1 := if 0 < i ∨ name = [] then pos - 1 else pos
      let acc1 := if 0 < i ∨ name = [] then 47 :: acc else acc
      if 255 < i + 1 then some (.error 2)
      else if name = [] then some (.ok acc1)
      else if pos1 < name.length then some (.error 1)
      else dtpLoop rest (i + 1) (pos1 - name.length) (name ++ acc1)

/-- Function `dirent_to_path` (e2find.c:325-366): resolve the chain of names hanging
from a dirent into an absolute path; the final `memmove` shifts the result
to the start of the buffer, so the returned value is the written byte
string.  `path_max` is the buffer size (PATH_MAX = 4096 at the only call
site); the initial `path[--pos] = '\0'` needs a nonempty buffer. -/
def dirent_to_path (chain : List (List Nat)) (path_max : Nat) : Option (Except Nat (List Nat)) :=
  if path_max < 1 then none else dtpLoop chain 0 (path_max - 1) []

/-- The absolute path produced for a chain of names (basename first, root
excluded): a leading slash, then the components from the top down. -/
def joinChain : List (List Nat) → List Nat
  | [] => [47]
  | nm :: rest => 47 :: rest.foldl (fun a n => n ++ 47 :: a) nm

/-- No two adjacent bytes of the list are both a slash. -/
def noDbl : List Nat → Bool
  | a :: b :: t => !(a == 47 && b == 47) && noDbl (b :: t)
  | _ => true

/-- An InodeTable record (struct inode_t).  The stride actually stored is
8, 12 or 16 bytes depending on which time columns were requested; the
unused time fields are simply not written and are 0 here. -/
structure inode_t where
  ino : Nat
  dirent : Nat
  time1 : Nat
  time2 : Nat
deriving DecidableEq

def ARRAY_MIN_BYTES : Nat := 65536

def ARRAY_INC_MAX_BYTES : Nat := 1048576

/-- struct array: the buffer list holds the used bytes (the
allocated-but-unused tail of the C buffer is not represented). -/
structure array_t where
  count : Nat
  bytes_used : Nat
  bytes_alloc : Nat
  buffer : List Nat
deriving DecidableEq

def array_init : array_t :=
  { count := 0, bytes_used := 0, bytes_alloc := ARRAY_MIN_BYTES, buffer := [] }

/-- array_add (e2find.c:127-144).  `realloc_ok` models whether the
allocator grants the growth when one is needed; on refusal the function
returns 0 (false) with the array unchanged — the element is not stored. -/
def array_add (realloc_ok : Bool) (a : array_t) (elt : List Nat) : Bool × array_t :=
  if a.bytes_alloc < a.bytes_used + elt.length then
    if realloc_ok then
      let inc := if ARRAY_INC_MAX_BYTES ≤ a.bytes_alloc then ARRAY_INC_MAX_BYTES
                 else a.bytes_alloc
      (true, { count := a.count + 1, bytes_used := a.bytes_used + elt.length,
               bytes_alloc := a.bytes_alloc + inc, buffer := a.buffer ++ elt })
    else (false, a)
  else
    (true, { count := a.count + 1, bytes_used := a.bytes_used + elt.length,
             bytes_alloc := a.bytes_alloc, buffer := a.buffer ++ elt })

/-- A u32 value as its four little-endian bytes. -/
def le4 (n : Nat) : List Nat :=
  [n % 256, n / 256 % 256, n / 65536 % 256, n / 16777216 % 256]

/-- The bytes appended for one dirent by dirent_cb (e2find.c:304-315): the
struct dirent_empty_t header {ino_idx, parent_idx}, then the name bytes,
then `4 - (name_len & 3)` NUL padding bytes (name_len & 3 = name_len % 4). -/
def serializeDirent (ino_idx parent_idx : Nat) (name : List Nat) : List Nat :=
  le4 ino_idx ++ le4 parent_idx ++ name ++ List.replicate (4 - name.length % 4) 0

/-- The mutable globals used by pass 2: inodes[] and dirents[]. -/
structure Pass2State where
  inodes : List inode_t
  dirents : array_t
deriving DecidableEq

/-- Write `off` into the dirent field of record `idx` (the C stores through
the pointer returned by inode_lookup). -/
def updDirent : List inode_t → Nat → Nat → List inode_t
  | [], _, _ => []
  | r :: rest, 0, off => { r with dirent := off } :: rest
  | r :: rest, n + 1, off => r :: updDirent rest n off

/-- One directory entry as passed to dirent_cb together with its callback
context (struct dirent_cb_t): the inode and InodeTable index of the
directory being iterated, the entry's inode, and the entry's name bytes
(`name_len & 0xff` bytes, at most 255 per the ext2 format). -/
structure DirEntry where
  parent_ino : Nat
  parent_idx : Nat
  ino : Nat
  name : List Nat
deriving DecidableEq

def EXT2_ROOT_INO : Nat := 2

/-- dirent_cb (e2find.c:270-318) for one directory entry.  `none` models
the fatal err(10) on an inode-table lookup miss; otherwise the callback
returns 0 with the updated globals.  `realloc_ok` is passed to array_add,
whose return value the C code ignores. -/
def dirent_cb (realloc_ok : Bool) (st : Pass2State) (e : DirEntry) : Option Pass2State :=
  if e.ino = e.parent_ino ∧ e.ino ≠ EXT2_ROOT_INO then some st
  else if e.name = [46, 46] then some st
  else
    let name := if e.ino = EXT2_ROOT_INO then [] else e.name
    match inode_lookup (st.inodes.map inode_t.ino) e.ino with
    | none => none
    | some ino_idx =>
      some { inodes := updDirent st.inodes ino_idx st.dirents.bytes_used,
             dirents := (array_add realloc_ok st.dirents
               (serializeDirent ino_idx e.parent_idx name)).2 }

/-- Pass 2 over a sequence of directory entries (the concatenation, in scan
order, of the entries delivered by ext2fs_dir_iterate for each directory). -/
def pass2 (realloc_ok : Bool) : Pass2State → List DirEntry → Option Pass2State
  | st, [] => some st
  | st, e :: rest =>
    match dirent_cb realloc_ok st e with
    | none => none
    | some st2 => pass2 realloc_ok st2 rest

/-- Specification device for C3: the sequence of (inode-table index, byte
offset) pairs of the dirents appended during pass 2, computed from the
fixed ino column and the running bytes_used counter. -/
def storedEvents (inos : List Nat) : Nat → List DirEntry → List (Nat × Nat)
  | _, [] => []
  | bytes, e :: rest =>
    if e.ino = e.parent_ino ∧ e.ino ≠ EXT2_ROOT_INO then storedEvents inos bytes rest
    else if e.name = [46, 46] then storedEvents inos bytes rest
    else
      let name := if e.ino = EXT2_ROOT_INO then [] else e.name
      match inode_lookup inos e.ino with
      | none => []
      | some idx =>
        (idx, bytes) :: storedEvents inos
          (bytes + (serializeDirent idx e.parent_idx name).length) rest

/-- A dirent record as appended during pass 2 (decoded form). -/
structure StoredDirent where
  ino_idx : Nat
  parent : Nat
  name : List Nat
deriving DecidableEq

/-- The DirentStore byte buffer resulting from appending the records. -/
def serializeAll : List StoredDirent → List Nat
  | [] => []
  | r :: rest => serializeDirent r.ino_idx r.parent r.name ++ serializeAll rest

/-- strlen(buf + off): the number of bytes before the first NUL. -/
def strlenAt (buf : List Nat) (off : Nat) : Nat :=
  ((buf.drop off).takeWhile (fun b => b != 0)).length

/-- The record walk of passes 2.5 and 3: visit `count` records starting at
byte offset `off`, recomputing each stride as
`sizeof(struct dirent_empty_t) + ((strlen(d->name) + 4) & ~3)`;
`(n + 4) / 4 * 4` equals the C's `(n + 4) & ~3`. -/
def walkOffsets (buf : List Nat) : Nat → Nat → List Nat
  | 0, _ => []
  | count + 1, off =>
    off :: walkOffsets buf count (off + 8 + (strlenAt buf (off + 8) + 4) / 4 * 4)

/-- The byte offsets at which the records were appended. -/
def appendOffsets : List StoredDirent → Nat → List Nat
  | [], _ => []
  | r :: rest, base =>
    base :: appendOffsets rest (base + (serializeDirent r.ino_idx r.parent r.name).length)

def EXT2_GOOD_OLD_FIRST_INO : Nat := 11

/-- One result of ext2fs_get_next_inode: a per-inode scan error (warned and
skipped) or an inode record; ino = 0 signals the end of the scan. -/
inductive ScanItem where
  | err : ScanItem
  | item (ino links : Nat) (isdir : Bool) (mtime ctime : Nat) : ScanItem
deriving DecidableEq

/-- The inodes_eltype record layout selector (e2find.c:156-161). -/
inductive inodes_eltype_t where
  | INODES_NONE
  | INODES_MTIME
  | INODES_CTIME
  | INODES_MTIME_CTIME
deriving DecidableEq

/-- bitfield_set on a bitfield modelled as its indicator function. -/
def setBit (f : Nat → Bool) (i : Nat) : Nat → Bool :=
  fun j => if j = i then true else f j

/-- bitfield_clear on a bitfield modelled as its indicator function. -/
def clearBit (f : Nat → Bool) (i : Nat) : Nat → Bool :=
  fun j => if j = i then false else f j

/-- The globals filled by pass 1. -/
structure Pass1State where
  inodes : List inode_t
  iisdir : Nat → Bool
  iselect : Nat → Bool

/-- State before pass 1: empty table, zeroed iisdir, and iselect pre-filled
with ones when no --after filter is active (e2find.c:451-459). -/
def pass1Init (opt_after : Nat) : Pass1State :=
  { inodes := [], iisdir := fun _ => false, iselect := fun _ => opt_after == 0 }

/-- The body of the pass-1 loop for one successfully scanned inode
(e2find.c:510-539): skip reserved (except root) and unused inodes,
set iisdir for directories, set iselect when --after matches, and append
the inode_t record (time fields populated per the configured stride). -/
def pass1Step (opt_after : Nat) (eltype : inodes_eltype_t) (st : Pass1State)
    (ino links : Nat) (isdir : Bool) (mt ct : Nat) : Pass1State :=
  if (ino < EXT2_GOOD_OLD_FIRST_INO ∧ ino ≠ EXT2_ROOT_INO) ∨ links = 0 then st
  else
    { inodes := st.inodes ++
        [⟨ino, 0,
          match eltype with
          | .INODES_NONE => 0
          | .INODES_MTIME => mt
          | .INODES_CTIME => ct
          | .INODES_MTIME_CTIME => mt,
          match eltype with
          | .INODES_MTIME_CTIME => ct
          | _ => 0⟩],
      iisdir := if isdir then setBit st.iisdir ino else st.iisdir,
      iselect := if opt_after ≠ 0 ∧ (opt_after ≤ mt ∨ opt_after ≤ ct)
                 then setBit st.iselect ino else st.iselect }

/-- The pass-1 scan loop: warn-and-continue on per-inode errors, stop at
ino = 0, process every other item. -/
def pass1 (opt_after : Nat) (eltype : inodes_eltype_t) : List ScanItem → Pass1State → Pass1State
  | [], st => st
  | .err :: rest, st => pass1 opt_after eltype rest st
  | .item ino links isdir mt ct :: rest, st =>
    if ino = 0 then st
    else pass1 opt_after eltype rest (pass1Step opt_after eltype st ino links isdir mt ct)

/-- The inode numbers the iterator yields, in order, up to the end marker
(specification device for the ascending-order hypothesis). -/
def scannedInos : List ScanItem → List Nat
  | [] => []
  | .err :: rest => scannedInos rest
  | .item ino _ _ _ _ :: rest => if ino = 0 then [] else ino :: scannedInos rest

/-- Whether the scan records a directory item with inode `i` (specification
device: the processed, non-skipped items with `isdir`). -/
def dirRecorded : List ScanItem → Nat → Bool
  | [], _ => false
  | .err :: rest, i => dirRecorded rest i
  | .item ino links isdir _ _ :: rest, i =>
    if ino = 0 then false
    else if (ino < EXT2_GOOD_OLD_FIRST_INO ∧ ino ≠ EXT2_ROOT_INO) ∨ links = 0 then
      dirRecorded rest i
    else ((ino == i) && isdir) || dirRecorded rest i

/-- The record terminator: newline, or NUL under --print0 (e2find.c:40,383). -/
def newline (print0 : Bool) : Nat := if print0 then 0 else 10

/-- Decimal digits (ASCII) of a natural number; the fuel argument only makes
the recursion structural and `n + 1` always suffices. -/
def natDecimalAux : Nat → Nat → List Nat
  | 0, _ => []
  | f + 1, n => if n < 10 then [48 + n] else natDecimalAux f (n / 10) ++ [48 + n % 10]

def natDecimal (n : Nat) : List Nat := natDecimalAux (n + 1) n

/-- printf's rendering of a signed decimal. -/
def intDecimal (v : Int) : List Nat :=
  if v < 0 then 45 :: natDecimal (-v).toNat else natDecimal v.toNat

/-- Format %10d: the signed decimal, right-aligned with spaces to a minimum of 10
columns (printf pads only when the rendering is shorter than the width). -/
def fmt10d (v : Int) : List Nat :=
  List.replicate (10 - (intDecimal v).length) 32 ++ intDecimal v

/-- The value printf's %d prints for an __u32 argument: the bit pattern read
back as a signed 32-bit integer. -/
def i32 (t : Nat) : Int :=
  if t < 2147483648 then (t : Int) else (t : Int) - 4294967296

/-- snprintf(prefix, 32, ...): at most 31 bytes are stored. -/
def snprintf32 (s : List Nat) : List Nat := s.take 31

/-- The prefix built by the switch at e2find.c:624-635 (MTIME and CTIME both
print time1, which pass 1 filled with the requested timestamp). -/
def prefix_of (t : inodes_eltype_t) (time1 time2 : Nat) : List Nat :=
  match t with
  | .INODES_NONE => []
  | .INODES_MTIME => snprintf32 (fmt10d (i32 time1) ++ [32])
  | .INODES_CTIME => snprintf32 (fmt10d (i32 time1) ++ [32])
  | .INODES_MTIME_CTIME =>
    snprintf32 (fmt10d (i32 time1) ++ [32] ++ fmt10d (i32 time2) ++ [32])

/-- printf("%s%s%c", prefix, path, newline): one emitted record. -/
def record_line (t : inodes_eltype_t) (time1 time2 : Nat) (path : List Nat)
    (nl : Nat) : List Nat :=
  prefix_of t time1 time2 ++ path ++ [nl]

/-- Pass 3 (e2find.c:602-641): walk the stored dirents in order; for each,
look up its inode record, skip it unless selected, clear the selection bit
under --unique, resolve the path (on error warn and continue), and emit.
Returns the list of (inode number, output line) pairs, or `none` on an
out-of-range table access.  `resolve` is the path resolution through the
immutable fixed-up store (dirent_to_path on the record's parent chain),
passed as a function of the record. -/
def pass3 (inodes : List inode_t) (t : inodes_eltype_t) (uniq : Bool)
    (resolve : StoredDirent → Except Nat (List Nat)) (nl : Nat) :
    List StoredDirent → (Nat → Bool) → Option (List (Nat × List Nat))
  | [], _ => some []
  | d :: rest, sel =>
    match inodes[d.ino_idx]? with
    | none => none
    | some i =>
      if sel i.ino = false then pass3 inodes t uniq resolve nl rest sel
      else
        let sel2 := if uniq then clearBit sel i.ino else sel
        match resolve d with
        | .error _ => pass3 inodes t uniq resolve nl rest sel2
        | .ok path =>
          match pass3 inodes t uniq resolve nl rest sel2 with
          | none => none
          | some out => some ((i.ino, record_line t i.time1 i.time2 path nl) :: out)

/-- Modelled from the spec's words (C8): "each timestamp right-aligned in a
10-column decimal field" — the decimal rendering of the timestamp value
itself (an unsigned quantity). -/
def spec_time_field (t : Nat) : List Nat :=
  List.replicate (10 - (natDecimal t).length) 32 ++ natDecimal t

/-- Modelled from the spec's words (C8): the claimed prefix grammar
none / "<mtime> " / "<ctime> " / "<mtime> <ctime> ". -/
def spec_prefix_of (t : inodes_eltype_t) (time1 time2 : Nat) : List Nat :=
  match t with
  | .INODES_NONE => []
  | .INODES_MTIME => spec_time_field time1 ++ [32]
  | .INODES_CTIME => spec_time_field time1 ++ [32]
  | .INODES_MTIME_CTIME => spec_time_field time1 ++ [32] ++ spec_time_field time2 ++ [32]

/-! ### Theorems -/

example : inode_lookup [11] 11 = some 0 := by decide

example : inode_lookup [2, 11] 11 = some 1 := by decide

example : inode_lookup [2, 11, 12] 2 = some 0 := by decide

example : inode_lookup [2, 11, 12, 13, 14, 20, 25] 25 = some 6 := by decide

example : inode_lookup [2, 11, 12, 13, 14, 20, 25] 2 = some 0 := by decide

example : inode_lookup [2, 11, 12, 13, 14, 20, 25, 30] 13 = some 3 := by decide

example : inode_lookup [] 5 = none := by decide

theorem readAt_some {l : List Nat} {idx : Int} {r : Nat} (h : readAt l idx = some r) :
    ∃ (m : Nat) (hm : m < l.length), idx = (m : Int) ∧ r = l.get ⟨m, hm⟩ := by
  unfold readAt at h
  split at h
  · exact absurd h (by simp)
  · next hneg =>
    have h0 : ¬ idx < 0 := hneg
    have hlt : idx.toNat < l.length := by
      by_contra hge
      rw [List.getElem?_eq_none (by omega)] at h
      exact absurd h (by simp)
    refine ⟨idx.toNat, hlt, by omega, ?_⟩
    rw [List.getElem?_eq_getElem hlt] at h
    cases h
    simp [List.get_eq_getElem]

theorem readAt_pos {l : List Nat} {idx : Int} (h0 : 0 ≤ idx) (hlt : idx.toNat < l.length) :
    readAt l idx = some (l.get ⟨idx.toNat, hlt⟩) := by
  unfold readAt
  rw [if_neg (by omega)]
  simp [List.getElem?_eq_getElem hlt, List.get_eq_getElem]

theorem pairwise_get_lt {l : List Nat} (hs : List.Pairwise (· < ·) l)
    {a b : Nat} (ha : a < l.length) (hb : b < l.length) (hab : a < b) :
    l.get ⟨a, ha⟩ < l.get ⟨b, hb⟩ :=
  List.pairwise_iff_get.mp hs ⟨a, ha⟩ ⟨b, hb⟩ hab

/-- On a strictly ascending table containing `ino` at position `j`, the upward
scan started strictly below `j` with enough fuel returns `j`. -/
theorem walkUp_finds {l : List Nat} {ino : Nat} (hs : List.Pairwise (· < ·) l)
    {j : Nat} (hj : j < l.length) (hx : l.get ⟨j, hj⟩ = ino) :
    ∀ (fuel : Nat) (index : Int), -1 ≤ index → index < (j : Int) →
      (j : Int) ≤ index + (fuel : Int) →
      walkUp l ino fuel index = some j := by
  intro fuel
  induction fuel with
  | zero => intro index _ hlt hle; omega
  | succ f ih =>
    intro index hm1 hlt hle
    have h0 : 0 ≤ index + 1 := by omega
    have hle2 : (index + 1).toNat ≤ j := by omega
    have hlt2 : (index + 1).toNat < l.length := by omega
    have hread := readAt_pos h0 hlt2
    rw [walkUp, hread]
    dsimp only
    by_cases hej : (index + 1).toNat = j
    · have hgx : l.get ⟨(index + 1).toNat, hlt2⟩ = ino := by
        subst hej; exact hx
      rw [if_pos hgx]
      rw [Option.some_inj, hej]
    · have hltj : (index + 1).toNat < j := by omega
      have hlt3 : l.get ⟨(index + 1).toNat, hlt2⟩ < ino := by
        rw [← hx]; exact pairwise_get_lt hs hlt2 hj hltj
      rw [if_neg (by omega), if_pos hlt3]
      exact ih (index + 1) (by omega) (by omega) (by omega)

/-- On a strictly ascending table containing `ino` at position `j`, the
downward scan started strictly above `j` with enough fuel returns `j`. -/
theorem walkDown_finds {l : List Nat} {ino : Nat} (hs : List.Pairwise (· < ·) l)
    {j : Nat} (hj : j < l.length) (hx : l.get ⟨j, hj⟩ = ino) :
    ∀ (fuel : Nat) (index : Int), index ≤ (l.length : Int) → (j : Int) < index →
      index ≤ (j : Int) + (fuel : Int) →
      walkDown l ino fuel index = some j := by
  intro fuel
  induction fuel with
  | zero => intro index _ hlt hle; omega
  | succ f ih =>
    intro index hub hlt hle
    have h0 : 0 ≤ index - 1 := by omega
    have hge2 : j ≤ (index - 1).toNat := by omega
    have hlt2 : (index - 1).toNat < l.length := by omega
    have hread := readAt_pos h0 hlt2
    rw [walkDown, hread]
    dsimp only
    by_cases hej : (index - 1).toNat = j
    · have hgx : l.get ⟨(index - 1).toNat, hlt2⟩ = ino := by
        subst hej; exact hx
      rw [if_pos hgx]
      rw [Option.some_inj, hej]
    · have hltj : j < (index - 1).toNat := by omega
      have hlt3 : ino < l.get ⟨(index - 1).toNat, hlt2⟩ := by
        rw [← hx]; exact pairwise_get_lt hs hj hlt2 hltj
      rw [if_neg (by omega), if_pos hlt3]
      exact ih (index - 1) (by omega) (by omega) (by omega)

/-- If the bisection loop returns early, the returned position holds `ino`. -/
theorem bisectLoop_found {l : List Nat} {ino : Nat} :
    ∀ (fuel ihalf : Nat) (index : Int) cur k,
      bisectLoop l ino fuel ihalf index cur = .found k →
      ∃ (hk : k < l.length), l.get ⟨k, hk⟩ = ino := by
  intro fuel
  induction fuel with
  | zero => intro ihalf index cur k h; simp [bisectLoop] at h
  | succ f ih =>
    intro ihalf index cur k h
    rw [bisectLoop] at h
    split at h
    · exact absurd h (by simp)
    · split at h
      · exact absurd h (by simp)
      · next r hread =>
        split at h
        · next hr =>
          cases h
          obtain ⟨m, hm, hidx, hrm⟩ := readAt_some hread
          have heq : (nextIndex ino (ihalf / 2) index cur).toNat = m := by omega
          rw [heq]
          exact ⟨hm, by omega⟩
        · exact ih _ _ _ _ h

theorem movb_zero {f ihalf : Nat} (h : ihalf / 2 ≤ 1) : movb f ihalf = 0 := by
  cases f with
  | zero => rfl
  | succ f => simp [movb, h]

theorem movb_le : ∀ f ihalf, 2 ≤ ihalf / 2 → movb f ihalf + 2 ≤ ihalf := by
  intro f
  induction f with
  | zero => intro ihalf h; rw [movb]; omega
  | succ f ih =>
    intro ihalf h
    rw [movb, if_neg (by omega)]
    by_cases h2 : 2 ≤ (ihalf / 2) / 2
    · have := ih (ihalf / 2) h2
      omega
    · rw [movb_zero (by omega)]
      omega

/-- Soundness of the bisection loop under the displacement invariant: it
never reads out of bounds, and on normal exit the final state is either the
input state unchanged or a valid in-range record that is not the target. -/
theorem bisectLoop_stop_sound {l : List Nat} {ino : Nat} :
    ∀ (fuel ihalf : Nat) (index : Int) cur,
      ihalf < fuel →
      (2 ≤ ihalf / 2 → (movb fuel ihalf : Int) ≤ index ∧ index + movb fuel ihalf < l.length) →
      bisectLoop l ino fuel ihalf index cur ≠ .fault ∧
      (∀ i2 c2, bisectLoop l ino fuel ihalf index cur = .stop i2 c2 →
        (i2 = index ∧ c2 = cur) ∨
        ∃ (m : Nat) (hm : m < l.length), i2 = (m : Int) ∧ c2 = some (l.get ⟨m, hm⟩) ∧
          l.get ⟨m, hm⟩ ≠ ino) := by
  intro fuel
  induction fuel with
  | zero => intro ihalf index cur hle _; omega
  | succ f ih =>
    intro ihalf index cur hle hinv
    by_cases hh : ihalf / 2 ≤ 1
    · constructor
      · intro h
        rw [bisectLoop, if_pos hh] at h
        exact absurd h (by simp)
      · intro i2 c2 h
        rw [bisectLoop, if_pos hh] at h
        cases h
        exact Or.inl ⟨rfl, rfl⟩
    · have hh2 : 2 ≤ ihalf / 2 := by omega
      obtain ⟨hlo, hhi⟩ := hinv hh2
      have hmv : movb (f + 1) ihalf = ihalf / 2 + movb f (ihalf / 2) := by
        rw [movb, if_neg hh]
      rw [hmv] at hlo hhi
      -- the next read is in bounds
      have hnext_lo : (movb f (ihalf / 2) : Int) ≤ nextIndex ino (ihalf / 2) index cur := by
        unfold nextIndex
        rcases cur with _ | c
        · push_cast at hlo ⊢; omega
        · split <;> (push_cast at hlo ⊢; omega)
      have hnext_hi : nextIndex ino (ihalf / 2) index cur + (movb f (ihalf / 2) : Int) <
          (l.length : Int) := by
        unfold nextIndex
        rcases cur with _ | c
        · push_cast at hlo hhi ⊢; omega
        · split <;> (push_cast at hlo hhi ⊢; omega)
      have h0 : 0 ≤ nextIndex ino (ihalf / 2) index cur := by omega
      have hltl : (nextIndex ino (ihalf / 2) index cur).toNat < l.length := by omega
      have hread := readAt_pos h0 hltl
      by_cases hr : l.get ⟨(nextIndex ino (ihalf / 2) index cur).toNat, hltl⟩ = ino
      · constructor
        · intro h
          rw [bisectLoop, if_neg hh] at h
          simp only [hread, hr, if_pos] at h
          exact absurd h (by simp)
        · intro i2 c2 h
          rw [bisectLoop, if_neg hh] at h
          simp only [hread, hr, if_pos] at h
          exact absurd h (by simp)
      · have hrec := ih (ihalf / 2) (nextIndex ino (ihalf / 2) index cur)
          (some (l.get ⟨(nextIndex ino (ihalf / 2) index cur).toNat, hltl⟩))
          (by omega)
          (fun h2 => ⟨hnext_lo, hnext_hi⟩)
        constructor
        · intro h
          rw [bisectLoop, if_neg hh] at h
          simp only [hread, hr, if_false, if_neg] at h
          exact hrec.1 h
        · intro i2 c2 h
          rw [bisectLoop, if_neg hh] at h
          simp only [hread, hr, if_false, if_neg] at h
          rcases hrec.2 i2 c2 h with ⟨h1, h2⟩ | ⟨m, hm, h1, h2, h3⟩
          · exact Or.inr ⟨(nextIndex ino (ihalf / 2) index cur).toNat, hltl, by omega,
              by rw [h2], hr⟩
          · exact Or.inr ⟨m, hm, h1, h2, h3⟩

/-- C1: on a strictly ascending table that contains `ino`, `inode_lookup`
returns the position of the record whose inode number is `ino` (the returned
pointer is the record at that position and `*pos` receives its index), for
every table size. -/
theorem C1_inode_lookup_finds (l : List Nat) (ino : Nat)
    (hs : List.Pairwise (· < ·) l) (hmem : ino ∈ l) :
    ∃ (k : Nat) (hk : k < l.length), inode_lookup l ino = some k ∧ l.get ⟨k, hk⟩ = ino := by
  obtain ⟨⟨j, hj⟩, hx⟩ := List.mem_iff_get.mp hmem
  unfold inode_lookup
  by_cases hsmall : l.length / 2 ≤ 1
  · have hb : bisectLoop l ino (l.length + 1) l.length (l.length : Int) none =
        .stop (l.length : Int) none := by
      rw [bisectLoop, if_pos hsmall]
    rw [hb]
    refine ⟨j, hj, ?_, hx⟩
    exact walkUp_finds hs hj hx (l.length + 1) (-1) (by omega) (by omega) (by omega)
  · have hh : ¬ l.length / 2 ≤ 1 := hsmall
    have h4 : 4 ≤ l.length := by omega
    have h0 : (0 : Int) ≤ (l.length : Int) - ((l.length / 2 : Nat) : Int) := by omega
    have hlt1 : ((l.length : Int) - ((l.length / 2 : Nat) : Int)).toNat < l.length := by omega
    have hread := readAt_pos h0 hlt1
    by_cases hr : l.get ⟨((l.length : Int) - ((l.length / 2 : Nat) : Int)).toNat, hlt1⟩ = ino
    · have hb : bisectLoop l ino (l.length + 1) l.length (l.length : Int) none =
          .found ((l.length : Int) - ((l.length / 2 : Nat) : Int)).toNat := by
        rw [bisectLoop, if_neg hh]
        dsimp only [nextIndex]
        simp only [hread]
        rw [if_pos hr]
      rw [hb]
      exact ⟨_, hlt1, rfl, hr⟩
    · have hb : bisectLoop l ino (l.length + 1) l.length (l.length : Int) none =
          bisectLoop l ino l.length (l.length / 2)
            ((l.length : Int) - ((l.length / 2 : Nat) : Int))
            (some (l.get ⟨((l.length : Int) - ((l.length / 2 : Nat) : Int)).toNat, hlt1⟩)) := by
        rw [bisectLoop, if_neg hh]
        dsimp only [nextIndex]
        simp only [hread]
        rw [if_neg hr]
      have hsound := @bisectLoop_stop_sound l ino l.length (l.length / 2)
        ((l.length : Int) - ((l.length / 2 : Nat) : Int))
        (some (l.get ⟨((l.length : Int) - ((l.length / 2 : Nat) : Int)).toNat, hlt1⟩))
        (by omega)
        (fun h2 => by
          have := movb_le l.length (l.length / 2) h2
          constructor <;> omega)
      rw [hb]
      rcases hres : bisectLoop l ino l.length (l.length / 2)
          ((l.length : Int) - ((l.length / 2 : Nat) : Int))
          (some (l.get ⟨((l.length : Int) - ((l.length / 2 : Nat) : Int)).toNat, hlt1⟩)) with
        k | ⟨i2, c2⟩ | -
      · obtain ⟨hk, hgk⟩ := bisectLoop_found l.length (l.length / 2) _ _ k hres
        exact ⟨k, hk, rfl, hgk⟩
      · have hchar := hsound.2 i2 c2 hres
        have hmain : ∃ (m : Nat) (hm : m < l.length), i2 = (m : Int) ∧
            c2 = some (l.get ⟨m, hm⟩) ∧ l.get ⟨m, hm⟩ ≠ ino := by
          rcases hchar with ⟨hi, hc⟩ | hok
          · exact ⟨((l.length : Int) - ((l.length / 2 : Nat) : Int)).toNat, hlt1,
              by omega, hc, hr⟩
          · exact hok
        obtain ⟨m, hm, hi, hc, hne⟩ := hmain
        dsimp only
        rw [hc]
        dsimp only
        by_cases hv : l.get ⟨m, hm⟩ < ino
        · have hmj : m < j := by
            rcases Nat.lt_trichotomy m j with h | h | h
            · exact h
            · have hfin : (⟨m, hm⟩ : Fin l.length) = ⟨j, hj⟩ := Fin.ext h
              exact absurd (by rw [hfin]; exact hx) hne
            · have := pairwise_get_lt hs hj hm h
              omega
          rw [if_pos hv]
          refine ⟨j, hj, ?_, hx⟩
          exact walkUp_finds hs hj hx (l.length + 1) i2 (by omega) (by omega) (by omega)
        · have hvgt : ino < l.get ⟨m, hm⟩ := by
            rcases Nat.lt_trichotomy (l.get ⟨m, hm⟩) ino with h | h | h
            · exact absurd h hv
            · exact absurd h hne
            · exact h
          have hjm : j < m := by
            rcases Nat.lt_trichotomy j m with h | h | h
            · exact h
            · have hfin : (⟨m, hm⟩ : Fin l.length) = ⟨j, hj⟩ := Fin.ext h.symm
              exact absurd (by rw [hfin]; exact hx) hne
            · have := pairwise_get_lt hs hm hj h
              omega
          rw [if_neg hv]
          refine ⟨j, hj, ?_, hx⟩
          exact walkDown_finds hs hj hx (l.length + 1) i2 (by omega) (by omega) (by omega)
      · exact absurd hres hsound.1

/-- Witness for C1 at a concrete sorted table. -/
theorem C1_witness :
    ∃ (k : Nat) (hk : k < [2, 11, 12, 13, 14, 20, 25, 30].length),
      inode_lookup [2, 11, 12, 13, 14, 20, 25, 30] 13 = some k ∧
      List.get [2, 11, 12, 13, 14, 20, 25, 30] ⟨k, hk⟩ = 13 :=
  C1_inode_lookup_finds [2, 11, 12, 13, 14, 20, 25, 30] 13 (by decide) (by decide)

example : dirent_to_path [[]] 4096 = some (.ok [47]) := rfl

example : dirent_to_path [[97], []] 4096 = some (.ok [47, 97]) := rfl

example : dirent_to_path [[98], [97], []] 4096 = some (.ok [47, 97, 47, 98]) := rfl

example : dirent_to_path [[97], []] 3 = some (.ok [47, 97]) := rfl

example : dirent_to_path [[97], []] 2 = some (.error 1) := rfl

example : dirent_to_path [[98, 99], [97], []] 8 = some (.ok [47, 97, 47, 98, 99]) := rfl

example : dirent_to_path [[98, 99], [97], []] 6 = some (.ok [47, 97, 47, 98, 99]) := rfl

example : dirent_to_path [[98, 99], [97], []] 5 = some (.error 1) := rfl

theorem sumLens_nil : sumLens [] = 0 := rfl

theorem sumLens_cons (n : List Nat) (rest : List (List Nat)) :
    sumLens (n :: rest) = n.length + sumLens rest := by
  simp [sumLens]

theorem noDbl_of_free : ∀ p : List Nat, (∀ b ∈ p, b ≠ 47) → noDbl p = true := by
  intro p
  induction p with
  | nil => intro _; rfl
  | cons x t ih =>
    intro hf
    cases t with
    | nil => rfl
    | cons y t2 =>
      have hx : x ≠ 47 := hf x (by simp)
      have ht : noDbl (y :: t2) = true := ih (fun b hb => hf b (by simp [hb]))
      simp [noDbl, hx, ht]

theorem noDbl_slash_cons {p : List Nat} (hf : ∀ b ∈ p, b ≠ 47) :
    noDbl (47 :: p) = true := by
  cases p with
  | nil => rfl
  | cons x t =>
    have hx : x ≠ 47 := hf x (by simp)
    have ht : noDbl (x :: t) = true := noDbl_of_free _ hf
    simp [noDbl, hx, ht]

theorem noDbl_append_seg : ∀ (n acc : List Nat), (∀ b ∈ n, b ≠ 47) →
    noDbl (47 :: acc) = true → noDbl (n ++ 47 :: acc) = true := by
  intro n
  induction n with
  | nil => intro acc _ h; exact h
  | cons x t ih =>
    intro acc hb h
    cases t with
    | nil =>
      have hx : x ≠ 47 := hb x (by simp)
      simp only [List.cons_append, List.nil_append]
      simp [noDbl, hx, h]
    | cons y t2 =>
      have hx : x ≠ 47 := hb x (by simp)
      have ht := ih acc (fun b hbm => hb b (by simp [hbm])) h
      simp only [List.cons_append] at ht ⊢
      simp [noDbl, hx, ht]

theorem noDbl_fold : ∀ (rest : List (List Nat)) (acc : List Nat),
    (∀ nm ∈ rest, nm ≠ []) → (∀ nm ∈ rest, ∀ b ∈ nm, b ≠ 47) →
    noDbl (47 :: acc) = true →
    noDbl (47 :: rest.foldl (fun a n => n ++ 47 :: a) acc) = true := by
  intro rest
  induction rest with
  | nil => intro acc _ _ h; exact h
  | cons n r ih =>
    intro acc hne hfree h
    rw [List.foldl_cons]
    refine ih (n ++ 47 :: acc) (fun nm hm => hne nm (by simp [hm]))
      (fun nm hm => hfree nm (by simp [hm])) ?_
    have hn : n ≠ [] := hne n (by simp)
    have hfn : ∀ b ∈ n, b ≠ 47 := hfree n (by simp)
    cases n with
    | nil => exact absurd rfl hn
    | cons x t =>
      have hx : x ≠ 47 := hfn x (by simp)
      have hseg : noDbl ((x :: t) ++ 47 :: acc) = true := noDbl_append_seg _ _ hfn h
      simp only [List.cons_append] at hseg ⊢
      simp [noDbl, hx, hseg]

/-- Success of the resolver loop from a mid-chain state (counter already
incremented at least once): with few enough remaining components and enough
buffer, it returns the remaining components slash-joined onto `acc`. -/
theorem dtpLoop_ok : ∀ (chain : List (List Nat)) (i pos : Nat) (acc : List Nat),
    (∀ nm ∈ chain, nm ≠ []) → 1 ≤ i → i + chain.length + 1 ≤ 255 →
    chain.length + sumLens chain + 1 ≤ pos →
    dtpLoop (chain ++ [[]]) i pos acc =
      some (.ok (47 :: chain.foldl (fun a n => n ++ 47 :: a) acc)) := by
  intro chain
  induction chain with
  | nil =>
    intro i pos acc _ hi h255 hpos
    rw [sumLens_nil] at hpos
    rw [List.nil_append, dtpLoop]
    rw [if_neg (by rintro ⟨-, h2⟩; simp at hpos; omega)]
    dsimp only
    rw [if_neg (show ¬ 255 < i + 1 by simp at h255; omega)]
    rw [if_pos rfl, if_pos (Or.inr rfl)]
    simp
  | cons n rest ih =>
    intro i pos acc hnm hi h255 hpos
    have hn : n ≠ [] := hnm n (by simp)
    have hlen : 1 ≤ n.length := List.length_pos.mpr hn
    rw [sumLens_cons] at hpos
    simp only [List.length_cons] at h255 hpos
    rw [List.cons_append, dtpLoop]
    rw [if_neg (by rintro ⟨-, h2⟩; omega)]
    dsimp only
    simp only [if_pos (show 0 < i ∨ n = [] from Or.inl hi)]
    rw [if_neg (show ¬ 255 < i + 1 by omega)]
    rw [if_neg hn]
    rw [if_neg (show ¬ (pos - 1 < n.length) by omega)]
    rw [ih (i + 1) (pos - 1 - n.length) (n ++ 47 :: acc)
      (fun nm hm => hnm nm (by simp [hm])) (by omega) (by omega) (by omega)]
    rw [List.foldl_cons]

/-- The resolver loop from a mid-chain state fails with error 2 exactly when
the counter would pass 255 and the buffer lasts until that check. -/
theorem dtpLoop_err2 : ∀ (chain : List (List Nat)) (i pos : Nat) (acc : List Nat),
    (∀ nm ∈ chain, nm ≠ []) → 1 ≤ i → i ≤ 255 →
    (dtpLoop (chain ++ [[]]) i pos acc = some (.error 2) ↔
      255 ≤ i + chain.length ∧ 256 - i + sumLens (chain.take (255 - i)) ≤ pos) := by
  intro chain
  induction chain with
  | nil =>
    intro i pos acc _ hi h255
    rw [List.nil_append, dtpLoop]
    by_cases hp : pos < 1
    · rw [if_pos ⟨Or.inr rfl, hp⟩]
      constructor
      · intro h; simp at h
      · rintro ⟨-, h2⟩
        simp [sumLens_nil] at h2
        omega
    · rw [if_neg (fun h => hp h.2)]
      dsimp only
      by_cases h2 : 255 < i + 1
      · rw [if_pos h2]
        constructor
        · intro _
          refine ⟨by simp; omega, ?_⟩
          simp [sumLens_nil]
          omega
        · intro _; rfl
      · rw [if_neg h2, if_pos rfl]
        constructor
        · intro h; simp at h
        · rintro ⟨h1, -⟩; simp at h1; omega
  | cons nm rest ih =>
    intro i pos acc hnm hi h255
    have hn : nm ≠ [] := hnm nm (by simp)
    have hlen : 0 < nm.length := List.length_pos.mpr hn
    rw [List.cons_append, dtpLoop]
    by_cases hp : pos < 1
    · rw [if_pos ⟨Or.inl hi, hp⟩]
      constructor
      · intro h; simp at h
      · rintro ⟨-, h2⟩
        have hnn : 0 ≤ sumLens ((nm :: rest).take (255 - i)) := Nat.zero_le _
        omega
    · rw [if_neg (fun h => hp h.2)]
      dsimp only
      simp only [if_pos (show 0 < i ∨ nm = [] from Or.inl hi)]
      by_cases h2 : 255 < i + 1
      · rw [if_pos h2]
        constructor
        · intro _
          refine ⟨by simp [List.length_cons]; omega, ?_⟩
          rw [show (255 - i) = 0 by omega]
          simp [sumLens_nil]
          omega
        · intro _; rfl
      · rw [if_neg h2, if_neg hn]
        by_cases h3 : pos - 1 < nm.length
        · rw [if_pos h3]
          constructor
          · intro h; simp at h
          · rintro ⟨h4, h5⟩
            rw [show (255 - i) = (254 - i) + 1 by omega] at h5
            rw [List.take_succ_cons, sumLens_cons] at h5
            omega
        · rw [if_neg h3]
          rw [ih (i + 1) (pos - 1 - nm.length) (nm ++ 47 :: acc)
            (fun x hx => hnm x (by simp [hx])) (by omega) (by omega)]
          rw [show (255 - (i + 1)) = 254 - i by omega]
          constructor
          · rintro ⟨ha, hb⟩
            refine ⟨by simp [List.length_cons]; omega, ?_⟩
            rw [show (255 - i) = (254 - i) + 1 by omega]
            rw [List.take_succ_cons, sumLens_cons]
            omega
          · rintro ⟨ha, hb⟩
            rw [show (255 - i) = (254 - i) + 1 by omega] at hb
            rw [List.take_succ_cons, sumLens_cons] at hb
            simp [List.length_cons] at ha
            exact ⟨by omega, by omega⟩

/-- Top-level success of `dirent_to_path`: a root-terminated chain of at most
254 components that fits the buffer resolves to the slash-joined path. -/
theorem dirent_to_path_ok (chain : List (List Nat)) (pm : Nat)
    (hnm : ∀ nm ∈ chain, nm ≠ []) (hlen : chain.length ≤ 254)
    (hfit : chain.length + sumLens chain + 2 ≤ pm) :
    dirent_to_path (chain ++ [[]]) pm = some (.ok (joinChain chain)) := by
  rw [dirent_to_path, if_neg (by omega)]
  cases chain with
  | nil =>
    rw [sumLens_nil] at hfit
    simp only [List.length_nil] at hfit
    rw [List.nil_append, dtpLoop]
    rw [if_neg (by rintro ⟨-, h2⟩; omega)]
    dsimp only
    rw [if_neg (by omega), if_pos rfl, if_pos (Or.inr rfl)]
    rfl
  | cons nm rest =>
    have hn : nm ≠ [] := hnm nm (by simp)
    have hl : 1 ≤ nm.length := List.length_pos.mpr hn
    rw [sumLens_cons] at hfit
    simp only [List.length_cons] at hfit hlen
    rw [List.cons_append, dtpLoop]
    rw [if_neg (by rintro ⟨h1, -⟩; rcases h1 with h1 | h1; omega; exact hn h1)]
    dsimp only
    simp only [if_neg (show ¬ (0 < 0 ∨ nm = []) by rintro (h | h); omega; exact hn h)]
    rw [if_neg (by omega)]
    rw [if_neg hn]
    rw [if_neg (show ¬ (pm - 1 < nm.length) by omega)]
    simp only [Nat.zero_add, List.append_nil]
    rw [dtpLoop_ok rest 1 (pm - 1 - nm.length) nm
      (fun x hx => hnm x (by simp [hx])) (by omega) (by omega) (by omega)]
    rfl

/-- Top-level characterization of the TooDeep (error 2) failure of
`dirent_to_path`: it fires exactly when the chain has at least 255
components and the buffer lasts until the 256th depth check. -/
theorem dirent_to_path_err2_iff (chain : List (List Nat)) (pm : Nat)
    (hnm : ∀ nm ∈ chain, nm ≠ []) (hpm : 1 ≤ pm) :
    (dirent_to_path (chain ++ [[]]) pm = some (.error 2) ↔
      255 ≤ chain.length ∧ 256 + sumLens (chain.take 255) ≤ pm) := by
  rw [dirent_to_path, if_neg (by omega)]
  cases chain with
  | nil =>
    rw [List.nil_append, dtpLoop]
    constructor
    · intro h
      by_cases hp : pm - 1 < 1
      · rw [if_pos ⟨Or.inr rfl, hp⟩] at h
        simp at h
      · rw [if_neg (fun hc => hp hc.2)] at h
        dsimp only at h
        rw [if_neg (by omega), if_pos rfl] at h
        simp at h
    · rintro ⟨h1, -⟩
      simp at h1
  | cons nm rest =>
    have hn : nm ≠ [] := hnm nm (by simp)
    have hl : 1 ≤ nm.length := List.length_pos.mpr hn
    have htk : (nm :: rest).take 255 = nm :: rest.take 254 := List.take_succ_cons
    rw [List.cons_append, dtpLoop]
    rw [if_neg (by rintro ⟨h1, -⟩; rcases h1 with h1 | h1; omega; exact hn h1)]
    dsimp only
    simp only [if_neg (show ¬ (0 < 0 ∨ nm = []) by rintro (h | h); omega; exact hn h)]
    rw [if_neg (by omega)]
    rw [if_neg hn]
    by_cases h3 : pm - 1 < nm.length
    · rw [if_pos h3]
      constructor
      · intro h; simp at h
      · rintro ⟨-, h5⟩
        rw [htk, sumLens_cons] at h5
        omega
    · rw [if_neg h3]
      simp only [Nat.zero_add, List.append_nil]
      rw [dtpLoop_err2 rest 1 (pm - 1 - nm.length) nm
        (fun x hx => hnm x (by simp [hx])) (by omega) (by omega)]
      rw [show (255 - 1) = 254 by omega, htk, sumLens_cons]
      simp only [List.length_cons]
      constructor
      · rintro ⟨ha, hb⟩
        exact ⟨by omega, by omega⟩
      · rintro ⟨ha, hb⟩
        exact ⟨by omega, by omega⟩

/-- C2 counterexample: a parent chain of exactly 255 one-byte components —
at most 255 components, total length far below PATH_MAX = 4096 — is
rejected by `dirent_to_path` with the TooDeep error (2), refuting both the
claimed success for every fitting chain of at most 255 components and the
claimed failure only above 255 components. -/
theorem C2_counterexample :
    (List.replicate 255 [97]).length = 255 ∧
    (List.replicate 255 [97]).length + sumLens (List.replicate 255 [97]) + 2 ≤ 4096 ∧
    dirent_to_path (List.replicate 255 [97] ++ [[]]) 4096 = some (.error 2) := by
  have hs : sumLens (List.replicate 255 [97]) = 255 := by
    simp [sumLens, List.map_replicate, List.sum_replicate]
  refine ⟨by simp, by rw [List.length_replicate, hs]; norm_num, ?_⟩
  rw [dirent_to_path_err2_iff _ _
    (fun nm h => by rw [List.eq_of_mem_replicate h]; simp) (by norm_num)]
  refine ⟨by simp, ?_⟩
  rw [List.take_replicate]
  norm_num [hs]

/-- C2 (amended): `dirent_to_path` fails with TooDeep iff the parent chain
has more than 254 name components and the buffer lasts until the depth
check is reached (256 + the length of the first 255 components fits
PATH_MAX); in particular, for every chain of at most 254 components whose
total length fits in PATH_MAX, resolution succeeds and the result begins
with a slash and contains no double slash. -/
theorem C2_dirent_to_path (chain : List (List Nat)) (pm : Nat)
    (hnm : ∀ nm ∈ chain, nm ≠ []) (hfree : ∀ nm ∈ chain, ∀ b ∈ nm, b ≠ 47)
    (hpm : 1 ≤ pm) :
    (dirent_to_path (chain ++ [[]]) pm = some (.error 2) ↔
      255 ≤ chain.length ∧ 256 + sumLens (chain.take 255) ≤ pm) ∧
    (chain.length ≤ 254 → chain.length + sumLens chain + 2 ≤ pm →
      dirent_to_path (chain ++ [[]]) pm = some (.ok (joinChain chain)) ∧
      (joinChain chain).head? = some 47 ∧
      noDbl (joinChain chain) = true) := by
  refine ⟨dirent_to_path_err2_iff chain pm hnm hpm, fun hlen hfit => ?_⟩
  refine ⟨dirent_to_path_ok chain pm hnm hlen hfit, ?_, ?_⟩
  · cases chain <;> rfl
  · cases chain with
    | nil => rfl
    | cons nm rest =>
      have hfn : ∀ b ∈ nm, b ≠ 47 := hfree nm (by simp)
      show noDbl (47 :: rest.foldl (fun a n => n ++ 47 :: a) nm) = true
      exact noDbl_fold rest nm (fun x hx => hnm x (by simp [hx]))
        (fun x hx => hfree x (by simp [hx])) (noDbl_slash_cons hfn)

/-- Witness for the amended C2 at a concrete two-component chain. -/
theorem C2_witness :
    (dirent_to_path ([[98], [97]] ++ [[]]) 4096 = some (.error 2) ↔
      255 ≤ ([[98], [97]] : List (List Nat)).length ∧
      256 + sumLens (([[98], [97]] : List (List Nat)).take 255) ≤ 4096) ∧
    (([[98], [97]] : List (List Nat)).length ≤ 254 →
      ([[98], [97]] : List (List Nat)).length + sumLens [[98], [97]] + 2 ≤ 4096 →
      dirent_to_path ([[98], [97]] ++ [[]]) 4096 = some (.ok (joinChain [[98], [97]])) ∧
      (joinChain [[98], [97]]).head? = some 47 ∧
      noDbl (joinChain [[98], [97]]) = true) :=
  C2_dirent_to_path [[98], [97]] 4096 (by decide) (by decide) (by norm_num)

example :
    (pass2 true ⟨[⟨2, 0, 0, 0⟩, ⟨12, 0, 0, 0⟩], array_init⟩
      [⟨2, 0, 12, [120]⟩, ⟨2, 0, 12, [121]⟩]).map (fun st => st.inodes.map inode_t.dirent) =
    some [0, 12] := by decide

example :
    (pass2 true ⟨[⟨2, 0, 0, 0⟩, ⟨12, 0, 0, 0⟩], array_init⟩
      [⟨2, 0, 2, [46]⟩, ⟨12, 1, 12, [46]⟩, ⟨12, 1, 2, [46, 46]⟩]).map
      (fun st => st.dirents.buffer) =
    some ([0,0,0,0, 0,0,0,0, 0,0,0,0]) := by decide

/-- C5: when the allocator refuses growth, the run does NOT abort: array_add
returns 0 leaving the array unchanged, dirent_cb ignores that return value
and returns 0 (modelled: `some`, the scan continues), and the element is
silently dropped — the store is unchanged while the inode record already
points at the never-written offset. -/
theorem C5_alloc_failure_not_fatal :
    array_add false { count := 0, bytes_used := 65530, bytes_alloc := 65536, buffer := [] }
        (serializeDirent 1 0 [120]) =
      (false, { count := 0, bytes_used := 65530, bytes_alloc := 65536, buffer := [] }) ∧
    dirent_cb false
        ⟨[⟨2, 0, 0, 0⟩, ⟨12, 0, 0, 0⟩],
         { count := 0, bytes_used := 65530, bytes_alloc := 65536, buffer := [] }⟩
        ⟨2, 0, 12, [120]⟩ =
      some ⟨[⟨2, 0, 0, 0⟩, ⟨12, 65530, 0, 0⟩],
            { count := 0, bytes_used := 65530, bytes_alloc := 65536, buffer := [] }⟩ := by
  decide

/-- With a granting allocator, array_add always succeeds and appends. -/
theorem array_add_true (a : array_t) (elt : List Nat) :
    (array_add true a elt).1 = true ∧
    ((array_add true a elt).2).buffer = a.buffer ++ elt ∧
    ((array_add true a elt).2).bytes_used = a.bytes_used + elt.length ∧
    ((array_add true a elt).2).count = a.count + 1 := by
  rw [array_add]
  split
  · exact ⟨rfl, rfl, rfl, rfl⟩
  · exact ⟨rfl, rfl, rfl, rfl⟩

/-- C4 counterexample: an ordinary entry of the ROOT directory (the
directory being iterated is the root inode, parent_ino = 2) whose own inode
is not the root: its name is stored verbatim — [97] followed by padding —
not as the empty root sentinel the claim requires for every entry of the
root directory. -/
theorem C4_counterexample :
    (dirent_cb true ⟨[⟨2, 0, 0, 0⟩, ⟨12, 0, 0, 0⟩], array_init⟩ ⟨2, 0, 12, [97]⟩).map
        (fun st => st.dirents.buffer.drop 8) =
      some [97, 0, 0, 0] ∧
    some [97, 0, 0, 0] ≠ some [0, 0, 0, 0] := by decide

/-- C4 (amended): a stored entry's name field is the empty root sentinel
exactly when the ENTRY's own inode is the root inode (its record carries
only NUL bytes after the header); every other stored entry's name is stored
verbatim followed by one to four NUL bytes, and every record's length is a
multiple of 4. -/
theorem C4_dirent_cb_stores (st : Pass2State) (e : DirEntry) (idx : Nat)
    (hskip : ¬ (e.ino = e.parent_ino ∧ e.ino ≠ EXT2_ROOT_INO))
    (hdd : e.name ≠ [46, 46])
    (hlk : inode_lookup (st.inodes.map inode_t.ino) e.ino = some idx) :
    ∃ st2, dirent_cb true st e = some st2 ∧
      ∃ rec, st2.dirents.buffer = st.dirents.buffer ++ rec ∧
        rec.length % 4 = 0 ∧
        (e.ino = EXT2_ROOT_INO → rec.drop 8 = [0, 0, 0, 0]) ∧
        (e.ino ≠ EXT2_ROOT_INO →
          rec.drop 8 = e.name ++ List.replicate (4 - e.name.length % 4) 0 ∧
          1 ≤ 4 - e.name.length % 4 ∧ 4 - e.name.length % 4 ≤ 4) := by
  rw [dirent_cb, if_neg hskip, if_neg hdd]
  dsimp only
  rw [hlk]
  refine ⟨_, rfl, serializeDirent idx e.parent_idx
    (if e.ino = EXT2_ROOT_INO then [] else e.name), ?_, ?_, ?_, ?_⟩
  · exact (array_add_true st.dirents _).2.1
  · rw [serializeDirent]
    simp only [le4, List.length_append, List.length_cons, List.length_nil,
      List.length_replicate]
    have := Nat.mod_lt (if e.ino = EXT2_ROOT_INO then ([] : List Nat) else e.name).length
      (show 0 < 4 by omega)
    omega
  · intro hroot
    rw [serializeDirent, if_pos hroot]
    rfl
  · intro hroot
    rw [serializeDirent, if_neg hroot]
    refine ⟨?_, ?_, ?_⟩
    · simp [le4]
    · have := Nat.mod_lt e.name.length (show 0 < 4 by omega)
      omega
    · omega

/-- Witness for the amended C4: the root's own '.' entry stores the empty
sentinel; an ordinary entry stores its name verbatim plus padding. -/
theorem C4_witness :
    ∃ st2, dirent_cb true ⟨[⟨2, 0, 0, 0⟩, ⟨12, 0, 0, 0⟩], array_init⟩ ⟨2, 0, 2, [46]⟩ =
        some st2 ∧
      ∃ rec, st2.dirents.buffer = (array_init).buffer ++ rec ∧
        rec.length % 4 = 0 ∧
        ((2 : Nat) = EXT2_ROOT_INO → rec.drop 8 = [0, 0, 0, 0]) ∧
        ((2 : Nat) ≠ EXT2_ROOT_INO →
          rec.drop 8 = [46] ++ List.replicate (4 - ([46] : List Nat).length % 4) 0 ∧
          1 ≤ 4 - ([46] : List Nat).length % 4 ∧ 4 - ([46] : List Nat).length % 4 ≤ 4) :=
  C4_dirent_cb_stores ⟨[⟨2, 0, 0, 0⟩, ⟨12, 0, 0, 0⟩], array_init⟩ ⟨2, 0, 2, [46]⟩ 0
    (by decide) (by decide) (by decide)

theorem walkUp_some {l : List Nat} {ino : Nat} :
    ∀ (fuel : Nat) (index : Int) (k : Nat), walkUp l ino fuel index = some k →
      ∃ (hk : k < l.length), l.get ⟨k, hk⟩ = ino := by
  intro fuel
  induction fuel with
  | zero => intro index k h; simp [walkUp] at h
  | succ f ih =>
    intro index k h
    rw [walkUp] at h
    split at h
    · simp at h
    · next r hread =>
      split at h
      · next hr =>
        have hk := Option.some.inj h
        obtain ⟨m, hm, hidx, hrm⟩ := readAt_some hread
        have hm2 : (index + 1).toNat = m := by omega
        refine ⟨by omega, ?_⟩
        have hfin : (⟨k, by omega⟩ : Fin l.length) = ⟨m, hm⟩ := Fin.ext (by show k = m; omega)
        rw [hfin, ← hrm, hr]
      · split at h
        · exact ih _ _ h
        · simp at h

theorem walkDown_some {l : List Nat} {ino : Nat} :
    ∀ (fuel : Nat) (index : Int) (k : Nat), walkDown l ino fuel index = some k →
      ∃ (hk : k < l.length), l.get ⟨k, hk⟩ = ino := by
  intro fuel
  induction fuel with
  | zero => intro index k h; simp [walkDown] at h
  | succ f ih =>
    intro index k h
    rw [walkDown] at h
    split at h
    · simp at h
    · next r hread =>
      split at h
      · next hr =>
        have hk := Option.some.inj h
        obtain ⟨m, hm, hidx, hrm⟩ := readAt_some hread
        refine ⟨by omega, ?_⟩
        have hfin : (⟨k, by omega⟩ : Fin l.length) = ⟨m, hm⟩ := Fin.ext (by show k = m; omega)
        rw [hfin, ← hrm, hr]
      · split at h
        · exact ih _ _ h
        · simp at h

/-- A successful inode_lookup returns a valid index holding the target. -/
theorem inode_lookup_some {l : List Nat} {ino k : Nat}
    (h : inode_lookup l ino = some k) :
    ∃ (hk : k < l.length), l.get ⟨k, hk⟩ = ino := by
  unfold inode_lookup at h
  cases hb : bisectLoop l ino (l.length + 1) l.length (l.length : Int) none with
  | found k2 =>
    rw [hb] at h
    obtain rfl := Option.some.inj h
    exact bisectLoop_found _ _ _ _ _ hb
  | stop i2 c2 =>
    rw [hb] at h
    cases c2 with
    | none =>
      dsimp only at h
      exact walkUp_some _ _ _ h
    | some c =>
      dsimp only at h
      split at h
      · exact walkUp_some _ _ _ h
      · exact walkDown_some _ _ _ h
  | fault => rw [hb] at h; simp at h

theorem updDirent_length : ∀ (l : List inode_t) (i off : Nat),
    (updDirent l i off).length = l.length := by
  intro l
  induction l with
  | nil => intro i off; cases i <;> rfl
  | cons r t ih =>
    intro i off
    cases i with
    | zero => rfl
    | succ n => simp [updDirent, ih]

theorem updDirent_map_ino : ∀ (l : List inode_t) (i off : Nat),
    (updDirent l i off).map inode_t.ino = l.map inode_t.ino := by
  intro l
  induction l with
  | nil => intro i off; cases i <;> rfl
  | cons r t ih =>
    intro i off
    cases i with
    | zero => rfl
    | succ n => simp [updDirent, ih]

theorem updDirent_get_self : ∀ (l : List inode_t) (i off : Nat), i < l.length →
    ((updDirent l i off).get? i).map inode_t.dirent = some off := by
  intro l
  induction l with
  | nil => intro i off h; simp at h
  | cons r t ih =>
    intro i off h
    cases i with
    | zero => rfl
    | succ n =>
      simp only [updDirent, List.get?_cons_succ]
      exact ih n off (by simp at h; omega)

theorem updDirent_get_other : ∀ (l : List inode_t) (i off j : Nat), j ≠ i →
    (updDirent l i off).get? j = l.get? j := by
  intro l
  induction l with
  | nil => intro i off j _; cases i <;> rfl
  | cons r t ih =>
    intro i off j hne
    cases i with
    | zero =>
      cases j with
      | zero => exact absurd rfl hne
      | succ m => simp [updDirent]
    | succ n =>
      cases j with
      | zero => rfl
      | succ m =>
        simp only [updDirent, List.get?_cons_succ]
        exact ih n off m (by omega)

theorem getLast?_cons {α : Type} (a : α) (l : List α) :
    (a :: l).getLast? = some (l.getLast?.getD a) := by
  induction l generalizing a with
  | nil => rfl
  | cons b t ih =>
    rw [List.getLast?_cons_cons, ih b]
    simp

/-- C3 (amended): after pass 2, each inode record's dirent field holds the
DirentStore byte offset of the LAST stored directory entry resolving to
that record (later entries for the same inode, e.g. hardlinks, overwrite
the earlier offset), or its prior value when no stored entry names it. -/
theorem C3_pass2_dirent_last : ∀ (entries : List DirEntry) (st st2 : Pass2State),
    pass2 true st entries = some st2 → ∀ idx : Nat,
      (st2.inodes.get? idx).map inode_t.dirent =
        (((storedEvents (st.inodes.map inode_t.ino) st.dirents.bytes_used entries).filter
            (fun p => p.1 = idx)).getLast?).elim
          ((st.inodes.get? idx).map inode_t.dirent) (fun p => some p.2) := by
  intro entries
  induction entries with
  | nil =>
    intro st st2 hp idx
    obtain rfl := Option.some.inj hp
    simp [storedEvents, Option.elim]
  | cons e rest ih =>
    intro st st2 hp idx
    rw [pass2] at hp
    by_cases h1 : e.ino = e.parent_ino ∧ e.ino ≠ EXT2_ROOT_INO
    · rw [show dirent_cb true st e = some st by rw [dirent_cb, if_pos h1]] at hp
      dsimp only at hp
      rw [storedEvents, if_pos h1]
      exact ih st st2 hp idx
    · by_cases h2 : e.name = [46, 46]
      · rw [show dirent_cb true st e = some st by
          rw [dirent_cb, if_neg h1, if_pos h2]] at hp
        dsimp only at hp
        rw [storedEvents, if_neg h1, if_pos h2]
        exact ih st st2 hp idx
      · cases hlk : inode_lookup (st.inodes.map inode_t.ino) e.ino with
        | none =>
          rw [show dirent_cb true st e = none by
            rw [dirent_cb, if_neg h1, if_neg h2]; dsimp only; rw [hlk]] at hp
          dsimp only at hp
          exact absurd hp (by simp)
        | some idx0 =>
          obtain ⟨hlt0, hg0⟩ := inode_lookup_some hlk
          have hlt0m : idx0 < st.inodes.length := by
            have := hlt0
            simpa using this
          have hcb : dirent_cb true st e = some
              ⟨updDirent st.inodes idx0 st.dirents.bytes_used,
               (array_add true st.dirents (serializeDirent idx0 e.parent_idx
                 (if e.ino = EXT2_ROOT_INO then [] else e.name))).2⟩ := by
            rw [dirent_cb, if_neg h1, if_neg h2]
            dsimp only
            rw [hlk]
          rw [hcb] at hp
          dsimp only at hp
          have hIH := ih _ st2 hp idx
          dsimp only at hIH
          rw [updDirent_map_ino] at hIH
          rw [(array_add_true st.dirents _).2.2.1] at hIH
          rw [storedEvents, if_neg h1, if_neg h2]
          dsimp only
          rw [hlk]
          dsimp only
          by_cases hidx : idx0 = idx
          · subst hidx
            rw [List.filter_cons_of_pos (by simp)]
            rw [getLast?_cons]
            rw [updDirent_get_self st.inodes idx0 st.dirents.bytes_used hlt0m] at hIH
            cases hq : ((storedEvents (st.inodes.map inode_t.ino)
                (st.dirents.bytes_used + (serializeDirent idx0 e.parent_idx
                  (if e.ino = EXT2_ROOT_INO then [] else e.name)).length) rest).filter
                (fun p => p.1 = idx0)).getLast? with
            | none =>
              rw [hq] at hIH
              simpa [Option.elim, Option.getD] using hIH
            | some q =>
              rw [hq] at hIH
              simpa [Option.elim, Option.getD] using hIH
          · rw [List.filter_cons_of_neg (by simp [hidx])]
            rw [updDirent_get_other st.inodes idx0 st.dirents.bytes_used idx
              (fun h => hidx h.symm)] at hIH
            exact hIH

/-- C3 counterexample: two entries (hardlinks) naming inode 12 are stored
at offsets 0 and 12; after pass 2 the record for inode 12 holds 12 — the
offset of the LAST observed entry — not 0, the offset of the first. -/
theorem C3_counterexample :
    storedEvents [2, 12] 0 [⟨2, 0, 12, [120]⟩, ⟨2, 0, 12, [121]⟩] = [(1, 0), (1, 12)] ∧
    (pass2 true ⟨[⟨2, 0, 0, 0⟩, ⟨12, 0, 0, 0⟩], array_init⟩
        [⟨2, 0, 12, [120]⟩, ⟨2, 0, 12, [121]⟩]).map
      (fun st => (st.inodes.get? 1).map inode_t.dirent) = some (some 12) ∧
    (12 : Nat) ≠ 0 := by decide

/-- Witness for the amended C3 on the concrete two-hardlink run. -/
theorem C3_witness :
    ∃ st2, pass2 true ⟨[⟨2, 0, 0, 0⟩, ⟨12, 0, 0, 0⟩], array_init⟩
        [⟨2, 0, 12, [120]⟩, ⟨2, 0, 12, [121]⟩] = some st2 ∧
      (st2.inodes.get? 1).map inode_t.dirent =
        ((((storedEvents (([⟨2, 0, 0, 0⟩, ⟨12, 0, 0, 0⟩] : List inode_t).map inode_t.ino)
            (array_init).bytes_used [⟨2, 0, 12, [120]⟩, ⟨2, 0, 12, [121]⟩]).filter
            (fun p => p.1 = 1)).getLast?).elim
          ((([⟨2, 0, 0, 0⟩, ⟨12, 0, 0, 0⟩] : List inode_t).get? 1).map inode_t.dirent)
          (fun p => some p.2)) := by
  have hpass : pass2 true ⟨[⟨2, 0, 0, 0⟩, ⟨12, 0, 0, 0⟩], array_init⟩
      [⟨2, 0, 12, [120]⟩, ⟨2, 0, 12, [121]⟩] = some
        ⟨[⟨2, 0, 0, 0⟩, ⟨12, 12, 0, 0⟩],
         { count := 2, bytes_used := 24, bytes_alloc := 65536,
           buffer := [1, 0, 0, 0, 0, 0, 0, 0, 120, 0, 0, 0,
                      1, 0, 0, 0, 0, 0, 0, 0, 121, 0, 0, 0] }⟩ := by decide
  exact ⟨_, hpass, C3_pass2_dirent_last _ _ _ hpass 1⟩

example : walkOffsets (serializeAll [⟨1, 0, [97]⟩, ⟨0, 0, []⟩, ⟨2, 1, [97, 98, 99, 100]⟩]) 3 0 =
    [0, 12, 24] := by decide

example : appendOffsets [⟨1, 0, [97]⟩, ⟨0, 0, []⟩, ⟨2, 1, [97, 98, 99, 100]⟩] 0 =
    [0, 12, 24] := by decide

theorem serializeDirent_length (a b : Nat) (nm : List Nat) :
    (serializeDirent a b nm).length = 8 + (nm.length + 4) / 4 * 4 := by
  rw [serializeDirent]
  simp only [le4, List.length_append, List.length_cons, List.length_nil,
    List.length_replicate]
  omega

theorem serializeDirent_drop8 (a b : Nat) (nm : List Nat) (tail : List Nat) :
    (serializeDirent a b nm ++ tail).drop 8 =
      (nm ++ List.replicate (4 - nm.length % 4) 0) ++ tail := by
  rw [serializeDirent]
  simp [le4, List.append_assoc]

theorem takeWhile_name : ∀ (name z : List Nat), (∀ b ∈ name, b ≠ 0) →
    List.takeWhile (fun b => b != 0) (name ++ 0 :: z) = name := by
  intro name
  induction name with
  | nil => intro z _; simp
  | cons x t ih =>
    intro z hb
    have hx : x ≠ 0 := hb x (by simp)
    simp only [List.cons_append, List.takeWhile_cons]
    rw [if_pos (by simp [hx])]
    rw [ih z (fun b h => hb b (by simp [h]))]

theorem walkOffsets_general : ∀ (records : List StoredDirent) (pre : List Nat),
    (∀ r ∈ records, ∀ b ∈ r.name, b ≠ 0) →
    walkOffsets (pre ++ serializeAll records) records.length pre.length =
      appendOffsets records pre.length := by
  intro records
  induction records with
  | nil => intro pre _; rfl
  | cons r rest ih =>
    intro pre hn
    have hfree : ∀ b ∈ r.name, b ≠ 0 := hn r (by simp)
    have hstr : strlenAt (pre ++ serializeAll (r :: rest)) (pre.length + 8) =
        r.name.length := by
      rw [strlenAt]
      rw [List.drop_append]
      show (((serializeDirent r.ino_idx r.parent r.name ++ serializeAll rest).drop 8).takeWhile
        (fun b => b != 0)).length = r.name.length
      rw [serializeDirent_drop8]
      rw [show 4 - r.name.length % 4 = (3 - r.name.length % 4) + 1 by omega,
        List.replicate_succ]
      rw [List.append_assoc, List.cons_append]
      rw [takeWhile_name r.name _ hfree]
    simp only [List.length_cons]
    rw [walkOffsets, hstr]
    rw [show pre.length + 8 + (r.name.length + 4) / 4 * 4 =
      (pre ++ serializeDirent r.ino_idx r.parent r.name).length by
        rw [List.length_append, serializeDirent_length]; omega]
    rw [appendOffsets]
    rw [show serializeAll (r :: rest) = serializeDirent r.ino_idx r.parent r.name ++
      serializeAll rest from rfl]
    rw [← List.append_assoc]
    rw [ih (pre ++ serializeDirent r.ino_idx r.parent r.name)
      (fun x hx => hn x (by simp [hx]))]
    rw [List.length_append, serializeDirent_length]

/-- C9: every appended dirent record is sizeof(header) + ((strlen(name)+4) & ~3)
bytes long — the name is followed by one to four NUL bytes — so the fix-up
and emission walks, recomputing each stride from strlen(name) at offset + 8,
visit exactly the append offsets of the records, in order. -/
theorem C9_walk_visits_append_offsets (records : List StoredDirent)
    (hnames : ∀ r ∈ records, ∀ b ∈ r.name, b ≠ 0) :
    walkOffsets (serializeAll records) records.length 0 = appendOffsets records 0 ∧
    ∀ r ∈ records,
      (serializeDirent r.ino_idx r.parent r.name).length =
        8 + (r.name.length + 4) / 4 * 4 ∧
      1 ≤ 4 - r.name.length % 4 ∧ 4 - r.name.length % 4 ≤ 4 := by
  constructor
  · have h := walkOffsets_general records [] hnames
    simpa using h
  · intro r _
    refine ⟨serializeDirent_length _ _ _, ?_, ?_⟩ <;> omega

/-- Witness for C9 on three concrete records (name lengths 1, 0 and 4). -/
theorem C9_witness :
    walkOffsets (serializeAll [⟨1, 0, [97]⟩, ⟨0, 0, []⟩, ⟨2, 1, [97, 98, 99, 100]⟩]) 3 0 =
      appendOffsets [⟨1, 0, [97]⟩, ⟨0, 0, []⟩, ⟨2, 1, [97, 98, 99, 100]⟩] 0 ∧
    ∀ r ∈ ([⟨1, 0, [97]⟩, ⟨0, 0, []⟩, ⟨2, 1, [97, 98, 99, 100]⟩] : List StoredDirent),
      (serializeDirent r.ino_idx r.parent r.name).length =
        8 + (r.name.length + 4) / 4 * 4 ∧
      1 ≤ 4 - r.name.length % 4 ∧ 4 - r.name.length % 4 ≤ 4 :=
  C9_walk_visits_append_offsets [⟨1, 0, [97]⟩, ⟨0, 0, []⟩, ⟨2, 1, [97, 98, 99, 100]⟩]
    (by decide)

example : (pass1 0 .INODES_NONE
    [.item 2 1 true 5 6, .err, .item 7 1 false 0 0, .item 11 2 true 9 9,
     .item 12 1 false 8 8, .item 0 0 false 0 0, .item 13 1 false 8 8]
    (pass1Init 0)).inodes.map inode_t.ino = [2, 11, 12] := by decide

example : (pass1 7 .INODES_MTIME
    [.item 2 1 true 5 6, .item 11 2 true 9 9, .item 0 0 false 0 0]
    (pass1Init 7)).iselect 11 = true := by decide

example : (pass1 7 .INODES_MTIME
    [.item 2 1 true 5 6, .item 11 2 true 9 9, .item 0 0 false 0 0]
    (pass1Init 7)).iselect 2 = false := by decide

theorem pass1_iisdir (opt_after : Nat) (eltype : inodes_eltype_t) :
    ∀ (items : List ScanItem) (st : Pass1State) (i : Nat),
      (pass1 opt_after eltype items st).iisdir i = (dirRecorded items i || st.iisdir i) := by
  intro items
  induction items with
  | nil => intro st i; simp [pass1, dirRecorded]
  | cons it rest ih =>
    intro st i
    cases it with
    | err =>
      rw [pass1, dirRecorded]
      exact ih st i
    | item ino links isdir mt ct =>
      rw [pass1, dirRecorded]
      by_cases h0 : ino = 0
      · rw [if_pos h0, if_pos h0]
        simp
      · rw [if_neg h0, if_neg h0]
        by_cases hskip : (ino < EXT2_GOOD_OLD_FIRST_INO ∧ ino ≠ EXT2_ROOT_INO) ∨ links = 0
        · rw [if_pos hskip]
          rw [ih, pass1Step.eq_def, if_pos hskip]
        · rw [if_neg hskip]
          rw [ih]
          have hstep : (pass1Step opt_after eltype st ino links isdir mt ct).iisdir =
              (if isdir then setBit st.iisdir ino else st.iisdir) := by
            rw [pass1Step.eq_def, if_neg hskip]
          rw [hstep]
          cases isdir with
          | false => simp
          | true =>
            by_cases hi : i = ino
            · subst hi
              simp [setBit]
            · have hba : ino ≠ i := fun h => hi h.symm
              have hbeq : (ino == i) = false := by simpa using hba
              simp [setBit, hi, hbeq]

theorem pass1_sorted (opt_after : Nat) (eltype : inodes_eltype_t) :
    ∀ (items : List ScanItem) (st : Pass1State),
      List.Pairwise (· < ·) (st.inodes.map inode_t.ino) →
      List.Pairwise (· < ·) (scannedInos items) →
      (∀ a ∈ st.inodes.map inode_t.ino, ∀ b ∈ scannedInos items, a < b) →
      List.Pairwise (· < ·) ((pass1 opt_after eltype items st).inodes.map inode_t.ino) := by
  intro items
  induction items with
  | nil => intro st hst _ _; exact hst
  | cons it rest ih =>
    intro st hst hsc hlt
    cases it with
    | err =>
      rw [pass1]
      exact ih st hst (by rw [scannedInos] at hsc; exact hsc)
        (by rw [scannedInos] at hlt; exact hlt)
    | item ino links isdir mt ct =>
      rw [pass1]
      by_cases h0 : ino = 0
      · rw [if_pos h0]; exact hst
      · rw [if_neg h0]
        rw [scannedInos, if_neg h0] at hsc hlt
        rw [List.pairwise_cons] at hsc
        by_cases hskip : (ino < EXT2_GOOD_OLD_FIRST_INO ∧ ino ≠ EXT2_ROOT_INO) ∨ links = 0
        · refine ih _ ?_ hsc.2 ?_
          · rw [pass1Step.eq_def, if_pos hskip]; exact hst
          · rw [pass1Step.eq_def, if_pos hskip]
            intro a ha b hb
            exact hlt a ha b (by simp [hb])
        · have hmap : (pass1Step opt_after eltype st ino links isdir mt ct).inodes.map
              inode_t.ino = st.inodes.map inode_t.ino ++ [ino] := by
            rw [pass1Step.eq_def, if_neg hskip]
            simp
          refine ih _ ?_ hsc.2 ?_
          · rw [hmap]
            rw [List.pairwise_append]
            refine ⟨hst, by simp, ?_⟩
            intro a ha b hb
            have hb2 : b = ino := by simpa using hb
            rw [hb2]
            exact hlt a ha ino (by simp)
          · rw [hmap]
            intro a ha b hb
            rcases List.mem_append.mp ha with ha2 | ha2
            · exact hlt a ha2 b (by simp [hb])
            · have ha3 : a = ino := by simpa using ha2
              rw [ha3]
              exact hsc.1 b hb

/-- C6: after pass 1, if the inode iterator yielded strictly ascending inode
numbers, the InodeTable records are in strictly ascending ino order, and the
iisdir bit of an inode is set exactly when the scan recorded a directory
item for it (so for every recorded inode the bit reflects whether that
inode is a directory). -/
theorem C6_pass1_invariants (items : List ScanItem) (opt_after : Nat)
    (eltype : inodes_eltype_t)
    (hasc : List.Pairwise (· < ·) (scannedInos items)) :
    List.Pairwise (· < ·)
      ((pass1 opt_after eltype items (pass1Init opt_after)).inodes.map inode_t.ino) ∧
    ∀ i : Nat, (pass1 opt_after eltype items (pass1Init opt_after)).iisdir i =
      dirRecorded items i := by
  constructor
  · exact pass1_sorted opt_after eltype items (pass1Init opt_after) (by simp [pass1Init])
      hasc (by simp [pass1Init])
  · intro i
    rw [pass1_iisdir]
    simp [pass1Init]

/-- Witness for C6 on a concrete scan containing an error item, a reserved
inode, an unused inode, the end marker and a trailing ignored item. -/
theorem C6_witness :
    List.Pairwise (· < ·)
      ((pass1 0 .INODES_NONE
        [.item 2 1 true 5 6, .err, .item 7 1 false 0 0, .item 11 2 true 9 9,
         .item 12 1 false 8 8, .item 0 0 false 0 0, .item 13 1 false 8 8]
        (pass1Init 0)).inodes.map inode_t.ino) ∧
    ∀ i : Nat, (pass1 0 .INODES_NONE
        [.item 2 1 true 5 6, .err, .item 7 1 false 0 0, .item 11 2 true 9 9,
         .item 12 1 false 8 8, .item 0 0 false 0 0, .item 13 1 false 8 8]
        (pass1Init 0)).iisdir i =
      dirRecorded
        [.item 2 1 true 5 6, .err, .item 7 1 false 0 0, .item 11 2 true 9 9,
         .item 12 1 false 8 8, .item 0 0 false 0 0, .item 13 1 false 8 8] i :=
  C6_pass1_invariants
    [.item 2 1 true 5 6, .err, .item 7 1 false 0 0, .item 11 2 true 9 9,
     .item 12 1 false 8 8, .item 0 0 false 0 0, .item 13 1 false 8 8]
    0 .INODES_NONE (by decide)

example :
    pass3 [⟨2, 0, 0, 0⟩, ⟨12, 0, 0, 0⟩] .INODES_NONE true
      (fun d => .ok (47 :: d.name)) 10
      [⟨1, 0, [120]⟩, ⟨1, 0, [121]⟩, ⟨0, 0, []⟩] (fun _ => true) =
    some [(12, [47, 120, 10]), (2, [47, 10])] := by decide

example :
    pass3 [⟨2, 0, 0, 0⟩, ⟨12, 0, 0, 0⟩] .INODES_NONE false
      (fun d => .ok (47 :: d.name)) 10
      [⟨1, 0, [120]⟩, ⟨1, 0, [121]⟩, ⟨0, 0, []⟩] (fun _ => true) =
    some [(12, [47, 120, 10]), (12, [47, 121, 10]), (2, [47, 10])] := by decide

/-- C8 counterexample: for mtime = 2^31 (does not fit in a signed 32-bit
int) the emitted field is "-2147483648 " — printf %d reinterprets the u32 —
not the claimed 10-column rendering "2147483648 " of the timestamp, and the
emitted line differs from the claimed grammar. -/
theorem C8_counterexample :
    prefix_of .INODES_MTIME 2147483648 0 ≠ spec_prefix_of .INODES_MTIME 2147483648 0 ∧
    record_line .INODES_MTIME 2147483648 0 [47, 97] 10 ≠
      spec_prefix_of .INODES_MTIME 2147483648 0 ++ [47, 97] ++ [10] := by decide

theorem natDecimalAux_length : ∀ (f n k : Nat), n < f → n < 10 ^ k → 1 ≤ k →
    (natDecimalAux f n).length ≤ k := by
  intro f
  induction f with
  | zero => intro n k h _ _; omega
  | succ f ih =>
    intro n k hf hk h1
    rw [natDecimalAux]
    by_cases hn : n < 10
    · rw [if_pos hn]
      simpa using h1
    · rw [if_neg hn]
      have hk2 : 2 ≤ k := by
        by_contra hkk
        have : k = 1 := by omega
        subst this
        simp at hk
        omega
      have hdiv : n / 10 < 10 ^ (k - 1) := by
        rw [Nat.div_lt_iff_lt_mul (by omega)]
        calc n < 10 ^ k := hk
        _ = 10 ^ (k - 1) * 10 := by
            rw [← Nat.pow_succ]
            congr 1
            omega
      have := ih (n / 10) (k - 1) (by omega) hdiv (by omega)
      simp only [List.length_append, List.length_cons, List.length_nil]
      omega

theorem natDecimal_length_le10 {n : Nat} (h : n < 10000000000) :
    (natDecimal n).length ≤ 10 := by
  exact natDecimalAux_length (n + 1) n 10 (by omega) (by norm_num; omega) (by omega)

theorem intDecimal_i32_length_le11 (s : Nat) (hs : s < 4294967296) :
    (intDecimal (i32 s)).length ≤ 11 := by
  rw [i32]
  by_cases ht : s < 2147483648
  · rw [if_pos ht, intDecimal, if_neg (by omega)]
    have htn : ((s : Int)).toNat = s := by omega
    rw [htn]
    have := natDecimal_length_le10 (show s < 10000000000 by omega)
    omega
  · rw [if_neg ht, intDecimal, if_pos (by omega)]
    simp only [List.length_cons]
    have htn : (-((s : Int) - 4294967296)).toNat = 4294967296 - s := by omega
    rw [htn]
    have := natDecimal_length_le10 (show 4294967296 - s < 10000000000 by omega)
    omega

theorem fmt10d_i32_length (s : Nat) (hs : s < 4294967296) :
    (fmt10d (i32 s)).length ≤ 11 ∧ 10 ≤ (fmt10d (i32 s)).length := by
  have h := intDecimal_i32_length_le11 s hs
  rw [fmt10d]
  simp only [List.length_append, List.length_replicate]
  omega

/-- C8 (amended): every emitted record is prefix + path + terminator, the
terminator is newline unless --print0 is set (then NUL), the prefix is
none, "<mtime> ", "<ctime> " or "<mtime> <ctime> " (mtime first), and each
timestamp field is the %d rendering of the u32 value reinterpreted as a
signed 32-bit integer, right-aligned to a minimum of 10 columns, followed
by exactly one space and never truncated by the 32-byte prefix buffer.
For values below 2^31 the field is exactly the timestamp right-aligned in
a 10-column decimal field; values at or above 2^31 print the negative
value t - 2^32 instead (see the counterexample). -/
theorem C8_record_line (t : inodes_eltype_t) (t1 t2 : Nat) (path : List Nat)
    (print0 : Bool) (h1 : t1 < 4294967296) (h2 : t2 < 4294967296) :
    record_line t t1 t2 path (newline print0) =
      prefix_of t t1 t2 ++ path ++ [if print0 then 0 else 10] ∧
    prefix_of t t1 t2 = (match t with
      | .INODES_NONE => []
      | .INODES_MTIME => fmt10d (i32 t1) ++ [32]
      | .INODES_CTIME => fmt10d (i32 t1) ++ [32]
      | .INODES_MTIME_CTIME => fmt10d (i32 t1) ++ [32] ++ fmt10d (i32 t2) ++ [32]) ∧
    10 ≤ (fmt10d (i32 t1)).length ∧ 10 ≤ (fmt10d (i32 t2)).length ∧
    (t1 < 2147483648 →
      fmt10d (i32 t1) = spec_time_field t1 ∧ (spec_time_field t1).length = 10) ∧
    (t2 < 2147483648 →
      fmt10d (i32 t2) = spec_time_field t2 ∧ (spec_time_field t2).length = 10) ∧
    (t1 < 2147483648 → t2 < 2147483648 →
      record_line t t1 t2 path (newline print0) =
        spec_prefix_of t t1 t2 ++ path ++ [if print0 then 0 else 10]) ∧
    (2147483648 ≤ t1 → i32 t1 = (t1 : Int) - 4294967296 ∧ i32 t1 < 0) ∧
    (2147483648 ≤ t2 → i32 t2 = (t2 : Int) - 4294967296 ∧ i32 t2 < 0) := by
  have hfmt : ∀ s : Nat, s < 2147483648 → fmt10d (i32 s) = spec_time_field s := by
    intro s hs
    rw [fmt10d, i32, if_pos hs, intDecimal, if_neg (by omega)]
    rw [spec_time_field]
    congr 2
  have hspec10 : ∀ s : Nat, s < 2147483648 → (spec_time_field s).length = 10 := by
    intro s hs
    rw [spec_time_field]
    have := natDecimal_length_le10 (show s < 10000000000 by omega)
    simp only [List.length_append, List.length_replicate]
    omega
  have hle11 : ∀ s : Nat, s < 4294967296 → (fmt10d (i32 s)).length ≤ 11 :=
    fun s hs => (fmt10d_i32_length s hs).1
  have hge10 : ∀ s : Nat, s < 4294967296 → 10 ≤ (fmt10d (i32 s)).length :=
    fun s hs => (fmt10d_i32_length s hs).2
  have hnl : (newline print0 : Nat) = if print0 then 0 else 10 := rfl
  have huntr : prefix_of t t1 t2 = (match t with
      | .INODES_NONE => []
      | .INODES_MTIME => fmt10d (i32 t1) ++ [32]
      | .INODES_CTIME => fmt10d (i32 t1) ++ [32]
      | .INODES_MTIME_CTIME => fmt10d (i32 t1) ++ [32] ++ fmt10d (i32 t2) ++ [32]) := by
    cases t with
    | INODES_NONE => rfl
    | INODES_MTIME =>
      rw [prefix_of, snprintf32]
      exact List.take_of_length_le (by
        simp only [List.length_append, List.length_cons, List.length_nil]
        have := hle11 t1 h1
        omega)
    | INODES_CTIME =>
      rw [prefix_of, snprintf32]
      exact List.take_of_length_le (by
        simp only [List.length_append, List.length_cons, List.length_nil]
        have := hle11 t1 h1
        omega)
    | INODES_MTIME_CTIME =>
      rw [prefix_of, snprintf32]
      exact List.take_of_length_le (by
        simp only [List.length_append, List.length_cons, List.length_nil]
        have := hle11 t1 h1
        have := hle11 t2 h2
        omega)
  refine ⟨rfl, huntr, hge10 t1 h1, hge10 t2 h2,
    fun hs => ⟨hfmt t1 hs, hspec10 t1 hs⟩,
    fun hs => ⟨hfmt t2 hs, hspec10 t2 hs⟩, ?_, ?_, ?_⟩
  · intro hs1 hs2
    rw [record_line, hnl]
    congr 1
    congr 1
    rw [huntr]
    cases t with
    | INODES_NONE => rfl
    | INODES_MTIME =>
      show fmt10d (i32 t1) ++ [32] = spec_prefix_of .INODES_MTIME t1 t2
      rw [spec_prefix_of, hfmt t1 hs1]
    | INODES_CTIME =>
      show fmt10d (i32 t1) ++ [32] = spec_prefix_of .INODES_CTIME t1 t2
      rw [spec_prefix_of, hfmt t1 hs1]
    | INODES_MTIME_CTIME =>
      show fmt10d (i32 t1) ++ [32] ++ fmt10d (i32 t2) ++ [32] =
        spec_prefix_of .INODES_MTIME_CTIME t1 t2
      rw [spec_prefix_of, hfmt t1 hs1, hfmt t2 hs2]
  · intro hs
    rw [i32, if_neg (by omega)]
    exact ⟨rfl, by omega⟩
  · intro hs
    rw [i32, if_neg (by omega)]
    exact ⟨rfl, by omega⟩

/-- Witness for the amended C8 with mtime = 2^32 - 1 (prints as -1 in a
10-column minimum-width field) and a sub-2^31 ctime. -/
theorem C8_witness :
    record_line .INODES_MTIME_CTIME 4294967295 1700000123 [47, 97] (newline false) =
      prefix_of .INODES_MTIME_CTIME 4294967295 1700000123 ++ [47, 97] ++
        [if false then 0 else 10] ∧
    prefix_of .INODES_MTIME_CTIME 4294967295 1700000123 =
      fmt10d (i32 4294967295) ++ [32] ++ fmt10d (i32 1700000123) ++ [32] ∧
    10 ≤ (fmt10d (i32 4294967295)).length ∧ 10 ≤ (fmt10d (i32 1700000123)).length ∧
    ((4294967295 : Nat) < 2147483648 →
      fmt10d (i32 4294967295) = spec_time_field 4294967295 ∧
      (spec_time_field 4294967295).length = 10) ∧
    ((1700000123 : Nat) < 2147483648 →
      fmt10d (i32 1700000123) = spec_time_field 1700000123 ∧
      (spec_time_field 1700000123).length = 10) ∧
    ((4294967295 : Nat) < 2147483648 → (1700000123 : Nat) < 2147483648 →
      record_line .INODES_MTIME_CTIME 4294967295 1700000123 [47, 97] (newline false) =
        spec_prefix_of .INODES_MTIME_CTIME 4294967295 1700000123 ++ [47, 97] ++
          [if false then 0 else 10]) ∧
    ((2147483648 : Nat) ≤ 4294967295 →
      i32 4294967295 = (4294967295 : Int) - 4294967296 ∧ i32 4294967295 < 0) ∧
    ((2147483648 : Nat) ≤ 1700000123 →
      i32 1700000123 = (1700000123 : Int) - 4294967296 ∧ i32 1700000123 < 0) :=
  C8_record_line .INODES_MTIME_CTIME 4294967295 1700000123 [47, 97] false
    (by norm_num) (by norm_num)

/-- An inode whose selection bit is clear is never emitted: bits are only
ever cleared during pass 3, never set. -/
theorem pass3_not_selected (inodes : List inode_t) (t : inodes_eltype_t) (uniq : Bool)
    (resolve : StoredDirent → Except Nat (List Nat)) (nl : Nat) :
    ∀ (l : List StoredDirent) (sel : Nat → Bool) (x : Nat) (out : List (Nat × List Nat)),
      sel x = false → pass3 inodes t uniq resolve nl l sel = some out →
      x ∉ out.map Prod.fst := by
  intro l
  induction l with
  | nil =>
    intro sel x out hx hp
    obtain rfl := Option.some.inj hp
    simp
  | cons d rest ih =>
    intro sel x out hx hp
    rw [pass3] at hp
    cases hg : inodes[d.ino_idx]? with
    | none => rw [hg] at hp; exact absurd hp (by simp)
    | some i =>
      rw [hg] at hp
      dsimp only at hp
      by_cases hsel : sel i.ino = false
      · rw [if_pos hsel] at hp
        exact ih sel x out hx hp
      · rw [if_neg hsel] at hp
        have hx2 : (if uniq then clearBit sel i.ino else sel) x = false := by
          cases uniq with
          | false => simpa using hx
          | true =>
            simp only [if_pos]
            rw [clearBit]
            split <;> simp [hx]
        cases hres : resolve d with
        | error e =>
          rw [hres] at hp
          exact ih _ x out hx2 hp
        | ok path =>
          rw [hres] at hp
          cases hrec : pass3 inodes t uniq resolve nl rest
              (if uniq then clearBit sel i.ino else sel) with
          | none => rw [hrec] at hp; exact absurd hp (by simp)
          | some out2 =>
            rw [hrec] at hp
            obtain rfl := Option.some.inj hp
            have hxi : x ≠ i.ino := fun h => by rw [h] at hx; rw [hx] at hsel; exact hsel rfl
            simp only [List.map_cons, List.mem_cons]
            rintro (h | h)
            · exact hxi h
            · exact ih _ x out2 hx2 hrec h

/-- Under --unique, the emitted inode numbers are pairwise distinct and each
had its selection bit set at entry. -/
theorem pass3_unique_nodup (inodes : List inode_t) (t : inodes_eltype_t)
    (resolve : StoredDirent → Except Nat (List Nat)) (nl : Nat) :
    ∀ (l : List StoredDirent) (sel : Nat → Bool) (out : List (Nat × List Nat)),
      pass3 inodes t true resolve nl l sel = some out →
      (out.map Prod.fst).Nodup ∧ ∀ x ∈ out.map Prod.fst, sel x = true := by
  intro l
  induction l with
  | nil =>
    intro sel out hp
    obtain rfl := Option.some.inj hp
    simp
  | cons d rest ih =>
    intro sel out hp
    rw [pass3] at hp
    cases hg : inodes[d.ino_idx]? with
    | none => rw [hg] at hp; exact absurd hp (by simp)
    | some i =>
      rw [hg] at hp
      dsimp only at hp
      by_cases hsel : sel i.ino = false
      · rw [if_pos hsel] at hp
        exact ih sel out hp
      · rw [if_neg hsel] at hp
        simp only [if_pos] at hp
        cases hres : resolve d with
        | error e =>
          rw [hres] at hp
          obtain ⟨hnd, hmem⟩ := ih _ out hp
          refine ⟨hnd, fun x hx => ?_⟩
          have := hmem x hx
          rw [clearBit] at this
          by_cases hxi : x = i.ino
          · rw [if_pos hxi] at this; exact absurd this (by simp)
          · rw [if_neg hxi] at this; exact this
        | ok path =>
          rw [hres] at hp
          cases hrec : pass3 inodes t true resolve nl rest (clearBit sel i.ino) with
          | none => rw [hrec] at hp; exact absurd hp (by simp)
          | some out2 =>
            rw [hrec] at hp
            obtain rfl := Option.some.inj hp
            obtain ⟨hnd, hmem⟩ := ih _ out2 hrec
            have hnotin : i.ino ∉ out2.map Prod.fst := by
              intro hin
              have := hmem i.ino hin
              rw [clearBit, if_pos rfl] at this
              exact absurd this (by simp)
            refine ⟨?_, ?_⟩
            · simp only [List.map_cons]
              exact List.nodup_cons.mpr ⟨hnotin, hnd⟩
            · intro x hx
              simp only [List.map_cons, List.mem_cons] at hx
              rcases hx with h | h
              · rw [h]
                exact Bool.of_not_eq_false hsel
              · have := hmem x h
                rw [clearBit] at this
                by_cases hxi : x = i.ino
                · rw [if_pos hxi] at this; exact absurd this (by simp)
                · rw [if_neg hxi] at this; exact this

/-- Everything emitted under --unique from selection state `sel` is emitted
by the run without --unique from any pointwise-weaker selection state. -/
theorem pass3_unique_subset (inodes : List inode_t) (t : inodes_eltype_t)
    (resolve : StoredDirent → Except Nat (List Nat)) (nl : Nat) :
    ∀ (l : List StoredDirent) (sel selA : Nat → Bool)
      (outU outA : List (Nat × List Nat)),
      (∀ x, sel x = true → selA x = true) →
      pass3 inodes t true resolve nl l sel = some outU →
      pass3 inodes t false resolve nl l selA = some outA →
      ∀ x ∈ outU.map Prod.fst, x ∈ outA.map Prod.fst := by
  intro l
  induction l with
  | nil =>
    intro sel selA outU outA _ hU hA
    obtain rfl := Option.some.inj hU
    simp
  | cons d rest ih =>
    intro sel selA outU outA hrel hU hA
    rw [pass3] at hU hA
    cases hg : inodes[d.ino_idx]? with
    | none => rw [hg] at hU; exact absurd hU (by simp)
    | some i =>
      rw [hg] at hU hA
      dsimp only at hU hA
      have hAtail : ∀ outA2, pass3 inodes t false resolve nl rest selA = some outA2 →
          ∀ x ∈ outA2.map Prod.fst, x ∈ outA.map Prod.fst := by
        intro outA2 hA2 x hx
        by_cases hselA : selA i.ino = false
        · rw [if_pos hselA, hA2] at hA
          obtain rfl := Option.some.inj hA
          exact hx
        · rw [if_neg hselA] at hA
          rw [if_neg Bool.false_ne_true] at hA
          cases hres : resolve d with
          | error e =>
            rw [hres, hA2] at hA
            obtain rfl := Option.some.inj hA
            exact hx
          | ok path =>
            rw [hres, hA2] at hA
            obtain rfl := Option.some.inj hA
            simp only [List.map_cons, List.mem_cons]
            exact Or.inr hx
      by_cases hsel : sel i.ino = false
      · rw [if_pos hsel] at hU
        cases hA2 : pass3 inodes t false resolve nl rest selA with
        | none =>
          by_cases hselA : selA i.ino = false
          · rw [if_pos hselA, hA2] at hA
            exact absurd hA (by simp)
          · rw [if_neg hselA] at hA
            rw [if_neg Bool.false_ne_true] at hA
            cases hres : resolve d with
            | error e => rw [hres, hA2] at hA; exact absurd hA (by simp)
            | ok path => rw [hres, hA2] at hA; exact absurd hA (by simp)
        | some outA2 =>
          intro x hx
          exact hAtail outA2 hA2 x (ih sel selA outU outA2 hrel hU hA2 x hx)
      · rw [if_neg hsel] at hU
        have hselA : selA i.ino = true := hrel i.ino (Bool.of_not_eq_false hsel)
        rw [if_neg (by simp [hselA])] at hA
        rw [if_pos rfl] at hU
        rw [if_neg Bool.false_ne_true] at hA
        have hrel2 : ∀ x, clearBit sel i.ino x = true → selA x = true := by
          intro x hx
          rw [clearBit] at hx
          by_cases hxi : x = i.ino
          · rw [if_pos hxi] at hx; exact absurd hx (by simp)
          · rw [if_neg hxi] at hx; exact hrel x hx
        cases hres : resolve d with
        | error e =>
          rw [hres] at hU hA
          exact ih _ selA outU outA hrel2 hU hA
        | ok path =>
          rw [hres] at hU hA
          cases hrecU : pass3 inodes t true resolve nl rest (clearBit sel i.ino) with
          | none => rw [hrecU] at hU; exact absurd hU (by simp)
          | some outU2 =>
            cases hrecA : pass3 inodes t false resolve nl rest selA with
            | none => rw [hrecA] at hA; exact absurd hA (by simp)
            | some outA2 =>
              rw [hrecU] at hU
              rw [hrecA] at hA
              obtain rfl := Option.some.inj hU
              obtain rfl := Option.some.inj hA
              intro x hx
              simp only [List.map_cons, List.mem_cons] at hx ⊢
              rcases hx with h | h
              · exact Or.inl h
              · exact Or.inr (ih _ selA outU2 outA2 hrel2 hrecU hrecA x h)

/-- C7: under --unique the emitted inode numbers contain no duplicates, and
every inode number emitted with --unique is among those emitted by the same
run configuration without --unique. -/
theorem C7_unique (inodes : List inode_t) (t : inodes_eltype_t)
    (resolve : StoredDirent → Except Nat (List Nat)) (nl : Nat)
    (store : List StoredDirent) (sel : Nat → Bool)
    (outU outA : List (Nat × List Nat))
    (hU : pass3 inodes t true resolve nl store sel = some outU)
    (hA : pass3 inodes t false resolve nl store sel = some outA) :
    (outU.map Prod.fst).Nodup ∧
    ∀ x ∈ outU.map Prod.fst, x ∈ outA.map Prod.fst :=
  ⟨(pass3_unique_nodup inodes t resolve nl store sel outU hU).1,
   pass3_unique_subset inodes t resolve nl store sel sel outU outA (fun _ h => h) hU hA⟩

/-- Witness for C7 on a concrete store with a hardlinked inode. -/
theorem C7_witness :
    (([(12, [47, 120, 10]), (2, [47, 10])] : List (Nat × List Nat)).map Prod.fst).Nodup ∧
    ∀ x ∈ ([(12, [47, 120, 10]), (2, [47, 10])] : List (Nat × List Nat)).map Prod.fst,
      x ∈ ([(12, [47, 120, 10]), (12, [47, 121, 10]), (2, [47, 10])] :
        List (Nat × List Nat)).map Prod.fst :=
  C7_unique [⟨2, 0, 0, 0⟩, ⟨12, 0, 0, 0⟩] .INODES_NONE
    (fun d => .ok (47 :: d.name)) 10
    [⟨1, 0, [120]⟩, ⟨1, 0, [121]⟩, ⟨0, 0, []⟩] (fun _ => true)
    [(12, [47, 120, 10]), (2, [47, 10])]
    [(12, [47, 120, 10]), (12, [47, 121, 10]), (2, [47, 10])]
    (by decide) (by decide)

/-- C10: under --unique the selection bit is cleared before path resolution
is attempted, so if resolution of the first selected dirent for an inode
fails, no pathname is emitted for that inode at all in that run — later
dirents naming the same inode are skipped although nothing was printed. -/
theorem C10_unique_failed_resolution (inodes : List inode_t) (t : inodes_eltype_t)
    (resolve : StoredDirent → Except Nat (List Nat)) (nl : Nat) :
    ∀ (pre : List StoredDirent) (post : List StoredDirent) (sel : Nat → Bool)
      (d : StoredDirent) (i : inode_t) (out : List (Nat × List Nat)) (e : Nat),
      inodes[d.ino_idx]? = some i →
      sel i.ino = true →
      (∀ d2 ∈ pre, ∀ i2, inodes[d2.ino_idx]? = some i2 → i2.ino ≠ i.ino) →
      resolve d = .error e →
      pass3 inodes t true resolve nl (pre ++ d :: post) sel = some out →
      i.ino ∉ out.map Prod.fst := by
  intro pre
  induction pre with
  | nil =>
    intro post sel d i out e hd hsel hpre hres hp
    rw [List.nil_append, pass3, hd] at hp
    dsimp only at hp
    rw [if_neg (by simp [hsel])] at hp
    simp only [if_pos] at hp
    rw [hres] at hp
    exact pass3_not_selected inodes t true resolve nl post (clearBit sel i.ino) i.ino out
      (by rw [clearBit, if_pos rfl]) hp
  | cons d2 pre2 ih =>
    intro post sel d i out e hd hsel hpre hres hp
    rw [List.cons_append, pass3] at hp
    cases hg : inodes[d2.ino_idx]? with
    | none => rw [hg] at hp; exact absurd hp (by simp)
    | some i2 =>
      rw [hg] at hp
      dsimp only at hp
      have hne : i2.ino ≠ i.ino := hpre d2 (by simp) i2 hg
      by_cases hsel2 : sel i2.ino = false
      · rw [if_pos hsel2] at hp
        exact ih post sel d i out e hd hsel (fun x hx => hpre x (by simp [hx])) hres hp
      · rw [if_neg hsel2] at hp
        simp only [if_pos] at hp
        have hsel3 : clearBit sel i2.ino i.ino = true := by
          rw [clearBit, if_neg (fun h => hne h.symm)]
          exact hsel
        cases hres2 : resolve d2 with
        | error e2 =>
          rw [hres2] at hp
          exact ih post _ d i out e hd hsel3
            (fun x hx => hpre x (by simp [hx])) hres hp
        | ok path =>
          rw [hres2] at hp
          cases hrec : pass3 inodes t true resolve nl (pre2 ++ d :: post)
              (clearBit sel i2.ino) with
          | none => rw [hrec] at hp; exact absurd hp (by simp)
          | some out2 =>
            rw [hrec] at hp
            obtain rfl := Option.some.inj hp
            have hni : i.ino ∉ out2.map Prod.fst :=
              ih post _ d i out2 e hd hsel3
                (fun x hx => hpre x (by simp [hx])) hres hrec
            simp only [List.map_cons, List.mem_cons]
            rintro (h | h)
            · exact hne h.symm
            · exact hni h

/-- Witness for C10: the first dirent of inode 12 fails to resolve; inode 12
is absent from the output even though a second dirent names it. -/
theorem C10_witness :
    (12 : Nat) ∉ ([(2, [47, 10])].map Prod.fst : List Nat) :=
  C10_unique_failed_resolution [⟨2, 0, 0, 0⟩, ⟨12, 0, 0, 0⟩] .INODES_NONE
    (fun d => if d.name = [120] then .error 2 else .ok (47 :: d.name)) 10
    [] [⟨1, 0, [121]⟩, ⟨0, 0, []⟩] (fun _ => true) ⟨1, 0, [120]⟩ ⟨12, 0, 0, 0⟩
    [(2, [47, 10])] 2 (by decide) (by decide) (by decide) (by rfl) (by decide)

end E2find
